import Mathlib

/-!
Kingdom of the Four Winds: the turn-resolution engine of `src/App.jsx`.

A shallow embedding of the rule engine inside the `App` component: the action
table `ACTIONS`, `initGame`, `addLog`, `canPay`, `executeAction` and
`handlePlayerAction`.

Modelling conventions.

* React state (`kingdoms`, `turn`, `logs`, `isProcessing`) is an explicit
  `GameState` record; a state updater `setX(prev => f prev)` is the function `f`
  applied once, in program order.
* A call of `handlePlayerAction` reads `kingdoms`, `turn` and `isProcessing` from
  the render it was created in, which is the state the call starts from; the AI
  loop therefore filters on the kingdom objects captured at that moment, while
  every `executeAction` updater acts on the current list.
* Resource amounts are JavaScript numbers that only ever hold integers; they
  are `Int` here.
* `Math.random()` is an explicit rational argument. `Math.floor(r * n)` and
  `r > 0.5` are computed exactly on it.
* An uncaught `TypeError` (reading a property of `undefined`) is the result
  `none`.
* Aliasing: every version of one kingdom shares one `incomeBuff` object and one
  `alliances` array, and distinct kingdoms own distinct ones, so in-place
  mutation of `partner.incomeBuff` is an update of the list entry the partner
  object sits at.
* Presentation state (`floatingTexts`, `selectedAction`, icons, css classes of
  actions) and the `id: Date.now() + Math.random()` stamp of log entries are
  left out.
-/

namespace FourWinds

/-! ## Data model -/

/-- The three resource keys `M`, `I`, `G` used in `cost` and `result` objects. -/
inductive Res where
  | M
  | I
  | G
  deriving DecidableEq, Repr

/-- The object literal `incomeBuff: { M, I, G }`. -/
structure IncomeBuff where
  M : Int
  I : Int
  G : Int
  deriving DecidableEq, Repr

/-- One kingdom object as built in `initGame`. -/
structure Kingdom where
  id : Nat
  name : String
  color : String
  M : Int
  I : Int
  G : Int
  alliances : List String
  incomeBuff : IncomeBuff
  isPlayer : Bool
  deriving DecidableEq, Repr

/-- The `result` object of an action: resource deltas, or `{ alliance: true }`. -/
inductive ActionResult where
  | deltas (d : List (Res × Int))
  | alliance
  deriving DecidableEq, Repr

/-- One row of `ACTIONS` (rule-relevant fields). -/
structure Action where
  id : Nat
  name : String
  cost : List (Res × Int)
  result : ActionResult
  deriving DecidableEq, Repr

/-- One entry of `logs`: `{ turn, text, type }`. -/
structure LogEntry where
  turn : Nat
  text : String
  typ : String
  deriving DecidableEq, Repr

/-- The React state of `App` that the rules read and write. -/
structure GameState where
  turn : Nat
  kingdoms : List Kingdom
  logs : List LogEntry
  isProcessing : Bool
  deriving DecidableEq, Repr

/-- The table `ACTIONS`. -/
def ACTIONS : List Action :=
  [ { id := 1, name := "Mobilize", cost := [(Res.M, 2)], result := .deltas [(Res.I, 2)] },
    { id := 2, name := "Raid", cost := [], result := .deltas [(Res.M, 4), (Res.I, -1)] },
    { id := 3, name := "Diplomacy", cost := [(Res.M, 1)], result := .deltas [(Res.I, 3)] },
    { id := 4, name := "Trade", cost := [(Res.I, 1)], result := .deltas [(Res.M, 3), (Res.G, 1)] },
    { id := 5, name := "Build", cost := [(Res.M, 4)], result := .deltas [(Res.G, 4)] },
    { id := 6, name := "Espionage", cost := [(Res.G, 1)], result := .deltas [(Res.I, 2)] },
    { id := 7, name := "Alliance", cost := [], result := .alliance } ]

/-- The table `KINGDOM_NAMES`. -/
def KINGDOM_NAMES : List String := ["Northrealm", "Duskfall", "Eastwind", "Southmarch"]

/-- The table `COLORS`. -/
def COLORS : List String := ["text-cyan-400", "text-purple-400", "text-amber-400", "text-rose-400"]

/-! ## Property access -/

/-- Read `k[key]`. -/
def Kingdom.get (k : Kingdom) : Res → Int
  | .M => k.M
  | .I => k.I
  | .G => k.G

/-- Write `k[key] = v`. -/
def Kingdom.put (k : Kingdom) (key : Res) (v : Int) : Kingdom :=
  match key with
  | .M => { k with M := v }
  | .I => { k with I := v }
  | .G => { k with G := v }

/-- Array read `xs[i]` for a number `i` that may be out of range: `undefined` is `none`. -/
def jsIndex {α : Type} (xs : List α) (i : Int) : Option α :=
  if i < 0 then none else xs[i.toNat]?

/-- The index expression `Math.floor(Math.random() * xs.length)` for the draw `r`. -/
def randomIndex (r : ℚ) (len : Nat) : Int := ⌊r * (len : ℚ)⌋

/-! ## Initialisation -/

/-- The kingdom built by the `map` callback of `initGame` for name `n` at index `i`. -/
def initialKingdom (n : String) (i : Nat) : Kingdom :=
  { id := i
    name := n
    color := COLORS.getD i ""
    M := 8 + (i : Int) * 2
    I := 5
    G := 6
    alliances := []
    incomeBuff := { M := 0, I := 0, G := 0 }
    isPlayer := i == 0 }

/-- The state that `initGame` installs; every setter overwrites, so the previous
state is ignored. -/
def initGame (_prev : GameState) : GameState :=
  { kingdoms := (KINGDOM_NAMES.enum).map (fun p => initialKingdom p.2 p.1)
    turn := 1
    logs := [{ turn := 1, text := "The Age of Four Winds begins. Choose your path wisely.",
               typ := "system" }]
    isProcessing := false }

/-- The state of `App` before the mount effect runs: the `useState` defaults. -/
def mountState : GameState :=
  { turn := 1, kingdoms := [], logs := [], isProcessing := false }

/-! ## Logic helpers -/

/-- `addLog(text, type)` with the `turn` captured by the enclosing render. -/
def addLog (turn : Nat) (prev : List LogEntry) (text : String) (typ : String) : List LogEntry :=
  prev ++ [{ turn := turn, text := text, typ := typ }]

/-- `canPay(k, cost)`: no key of `cost` asks for more than `k` holds. -/
def canPay (k : Kingdom) (cost : List (Res × Int)) : Bool :=
  cost.all (fun c => !(k.get c.1 < c.2))

/-! ## Core game loop -/

/-- The "Pay Costs" loop of `executeAction`: `k[key] -= val` for every key. -/
def payCosts (k : Kingdom) (cost : List (Res × Int)) : Kingdom :=
  cost.foldl (fun k c => k.put c.1 (k.get c.1 - c.2)) k

/-- The "Standard Action" loop of `executeAction`: `k[key] += val` for every key. -/
def applyResult (k : Kingdom) (result : List (Res × Int)) : Kingdom :=
  result.foldl (fun k c => k.put c.1 (k.get c.1 + c.2)) k

/-- The alliance success mutation `k.incomeBuff.M += 3; .I += 1; .G += 2`. -/
def actorBuff (b : IncomeBuff) : IncomeBuff :=
  { M := b.M + 3, I := b.I + 1, G := b.G + 2 }

/-- The partner mutation `partner.incomeBuff.M += 2; .I += 1; .G += 1`. -/
def partnerBuff (b : IncomeBuff) : IncomeBuff :=
  { M := b.M + 2, I := b.I + 1, G := b.G + 1 }

/-- The list `others = newKingdoms.filter(o => o.id !== k.id)`; every element keeps
the position it has in `newKingdoms`, which stands for the object's identity. -/
def othersOf (newKingdoms : List Kingdom) (k : Kingdom) : List (Nat × Kingdom) :=
  (newKingdoms.enum).filter (fun o => o.2.id != k.id)

/-- The updater passed to `setKingdoms` by `executeAction(kingdomId, action)`,
together with the `addLog` call it makes. `rPartner` and `rSuccess` are the two
`Math.random()` draws of the alliance case. A `kingdomId` outside the list is
outside the embedding (JavaScript would copy `undefined` into an empty object)
and gives `none`, as does the `TypeError` of `partner.name` for a missing
partner. -/
def executeAction (turn : Nat) (prev : List Kingdom) (logs : List LogEntry)
    (kingdomId : Nat) (action : Action) (rPartner rSuccess : ℚ) :
    Option (List Kingdom × List LogEntry) :=
  match prev[kingdomId]? with
  | none => none
  | some k0 =>
    let k := payCosts k0 action.cost
    match action.result with
    | .alliance =>
      let others := othersOf prev k
      let partner := jsIndex others (randomIndex rPartner others.length)
      if rSuccess > 1 / 2 then
        match partner with
        | none => none
        | some (j, p) =>
          let k1 := { k with incomeBuff := actorBuff k.incomeBuff,
                             alliances := k.alliances ++ [p.name] }
          let logs1 := addLog turn logs
            (k.name ++ " formed an alliance with " ++ p.name ++ "!")
            (if k.isPlayer then "success" else "info")
          let withPartner := prev.set j { p with incomeBuff := partnerBuff p.incomeBuff }
          some (withPartner.set kingdomId k1, logs1)
      else
        let k1 := { k with I := max 0 (k.I - 3) }
        let logs1 := addLog turn logs (k.name ++ " alliance failed. Lost 3 Influence.") "error"
        some (prev.set kingdomId k1, logs1)
    | .deltas result =>
      let k1 := applyResult k result
      let logs1 := addLog turn logs (k1.name ++ " used " ++ action.name ++ ".")
        (if k1.isPlayer then "player" else "enemy")
      some (prev.set kingdomId k1, logs1)

/-- The three `Math.random()` draws one computer kingdom may consume in its turn. -/
structure AIDraw where
  choice : ℚ
  partner : ℚ
  success : ℚ

/-- All `Math.random()` draws of one `handlePlayerAction` call: the player's two
alliance draws and, per iteration `i` of the AI loop, that kingdom's draws. -/
structure Draws where
  partner : ℚ
  success : ℚ
  ai : Nat → AIDraw

/-- The list `affordableActions = ACTIONS.filter(a => canPay(aiK, a.cost))`. -/
def affordableActions (aiK : Kingdom) : List Action :=
  ACTIONS.filter (fun a => canPay aiK a.cost)

/-- The choice `affordableActions[Math.floor(Math.random() * affordableActions.length)]`. -/
def chooseAction (aiK : Kingdom) (r : ℚ) : Option Action :=
  jsIndex (affordableActions aiK) (randomIndex r (affordableActions aiK).length)

/-- One iteration of the AI loop for the captured kingdom object `aiK`, acting on
the current kingdom list and log. -/
def aiTurn (turn : Nat) (aiK : Kingdom) (d : AIDraw)
    (cur : List Kingdom × List LogEntry) : Option (List Kingdom × List LogEntry) :=
  match chooseAction aiK d.choice with
  | some aiAction => executeAction turn cur.1 cur.2 aiK.id aiAction d.partner d.success
  | none => some (cur.1, addLog turn cur.2 (aiK.name ++ " waits (No resources).") "info")

/-- The loop `for (let i = 0; i < aiKingdoms.length; i++)` from iteration `i` on,
over the remaining captured kingdoms. -/
def aiLoop (turn : Nat) (ai : Nat → AIDraw) :
    List Kingdom → Nat → List Kingdom × List LogEntry → Option (List Kingdom × List LogEntry)
  | [], _, cur => some cur
  | aiK :: rest, i, cur =>
    match aiTurn turn aiK (ai i) cur with
    | none => none
    | some next => aiLoop turn ai rest (i + 1) next

/-- The `map` callback of the "End Turn Income" updater. -/
def endTurnIncome (k : Kingdom) : Kingdom :=
  if k.incomeBuff.M ≠ 0 ∨ k.incomeBuff.I ≠ 0 ∨ k.incomeBuff.G ≠ 0 then
    { k with M := max 0 (k.M + k.incomeBuff.M),
             I := max 0 (k.I + k.incomeBuff.I),
             G := max 0 (k.G + k.incomeBuff.G) }
  else k

/-- Steps 1 and 2 of `handlePlayerAction` once the guards have passed: the
player's `executeAction(0, action)`, then the AI loop over `kingdoms.slice(1)`
as captured when the call began. -/
def actPhase (s : GameState) (action : Action) (d : Draws) :
    Option (List Kingdom × List LogEntry) :=
  match executeAction s.turn s.kingdoms s.logs 0 action d.partner d.success with
  | none => none
  | some afterPlayer => aiLoop s.turn d.ai (s.kingdoms.drop 1) 0 afterPlayer

/-- The lookup `ACTIONS.find(a => a.id === actionId)`. -/
def findAction (actionId : Nat) : Option Action :=
  ACTIONS.find? (fun a => a.id == actionId)

/-- The handler `handlePlayerAction(actionId)` run to its end on the rendered
state `s`. An `actionId` outside `ACTIONS` raises a `TypeError` at
`action.cost`; a state with no `kingdoms[0]` is outside the embedding. -/
def handlePlayerAction (s : GameState) (actionId : Nat) (d : Draws) : Option GameState :=
  if s.isProcessing then some s
  else
    match findAction actionId with
    | none => none
    | some action =>
      match s.kingdoms[0]? with
      | none => none
      | some player =>
        if !canPay player action.cost then some s
        else
          match actPhase s action d with
          | none => none
          | some (acted, logs) =>
            some { kingdoms := acted.map endTurnIncome
                   turn := s.turn + 1
                   logs := logs
                   isProcessing := false }

/-- A whole game: `initGame`, then one `handlePlayerAction` call per input. -/
def play : GameState → List (Nat × Draws) → Option GameState
  | s, [] => some s
  | s, (actionId, d) :: rest =>
    match handlePlayerAction s actionId d with
    | none => none
    | some s1 => play s1 rest

/-- Draws that are all zero. -/
def zeroDraws : Draws :=
  { partner := 0, success := 0, ai := fun _ => { choice := 0, partner := 0, success := 0 } }

/-! ## Well-formed states -/

/-- Every kingdom's `id` is its index in the list, as `initGame` builds it and as
every update keeps it. -/
def IdsAreIndices (ks : List Kingdom) : Prop :=
  ks.map (fun k => k.id) = List.range ks.length

instance (ks : List Kingdom) : Decidable (IdsAreIndices ks) := by
  unfold IdsAreIndices; infer_instance

/-- A value `Math.random()` can return: a number in `[0, 1)`. -/
def InUnit (r : ℚ) : Prop := 0 ≤ r ∧ r < 1

instance (r : ℚ) : Decidable (InUnit r) := by
  unfold InUnit; infer_instance

/-- Every draw of a call is a value `Math.random()` can return. -/
def Draws.Valid (d : Draws) : Prop :=
  InUnit d.partner ∧ InUnit d.success ∧
    ∀ i, InUnit (d.ai i).choice ∧ InUnit (d.ai i).partner ∧ InUnit (d.ai i).success

/-- The fields of a kingdom that no rule writes. -/
def Kingdom.identity (k : Kingdom) : Nat × String × String × Bool :=
  (k.id, k.name, k.color, k.isPlayer)

/-- The three resource amounts of a kingdom. -/
def Kingdom.resources (k : Kingdom) : Int × Int × Int := (k.M, k.I, k.G)

/-- The relation between the kingdom list before and after one kingdom at
position `i` has acted: same places, same identities, and the same resources
everywhere but at `i`. -/
def ActedAt (i : Nat) (ks ks1 : List Kingdom) : Prop :=
  ks1.length = ks.length ∧
    ∀ (n : Nat) (k : Kingdom), ks[n]? = some k →
      ∃ k1, ks1[n]? = some k1 ∧ k1.identity = k.identity ∧ (n ≠ i → k1.resources = k.resources)

/-- The relation between the kingdom list a call captured and the current list
once the kingdoms at positions below `m` have acted: same places and identities,
and the captured resources at every position from `m` on. -/
def Tracks (m : Nat) (ks cur : List Kingdom) : Prop :=
  cur.length = ks.length ∧
    ∀ (n : Nat) (k : Kingdom), ks[n]? = some k →
      ∃ k1, cur[n]? = some k1 ∧ k1.identity = k.identity ∧ (m ≤ n → k1.resources = k.resources)

/-- No income buff component at any position of `ks1` is below the one at the same
position of `ks`. -/
def BuffsGrow (ks ks1 : List Kingdom) : Prop :=
  ks1.length = ks.length ∧
    ∀ (n : Nat) (k : Kingdom), ks[n]? = some k →
      ∃ k1, ks1[n]? = some k1 ∧ k.incomeBuff.M ≤ k1.incomeBuff.M ∧
        k.incomeBuff.I ≤ k1.incomeBuff.I ∧ k.incomeBuff.G ≤ k1.incomeBuff.G

/-- The income buffs of `ks1` are, position by position, those of `ks`. -/
def BuffsSame (ks ks1 : List Kingdom) : Prop :=
  ∀ (n : Nat), ks1[n]?.map (fun k => k.incomeBuff) = ks[n]?.map (fun k => k.incomeBuff)

/-- Some kingdom's Alliance succeeds during the call `handlePlayerAction(actionId)`
on `s` with draws `d`: the player's action, or the action the Decision Policy
selects in some iteration of the AI loop, carries the alliance marker and its
success draw is above 0.5. -/
def AllianceSucceeds (s : GameState) (actionId : Nat) (d : Draws) : Prop :=
  (∃ a, findAction actionId = some a ∧ a.result = .alliance ∧ d.success > 1 / 2) ∨
    ∃ (i : Nat) (aiK : Kingdom) (act : Action),
      (s.kingdoms.drop 1)[i]? = some aiK ∧ chooseAction aiK (d.ai i).choice = some act ∧
        act.result = .alliance ∧ (d.ai i).success > 1 / 2

/-- Every kingdom of the list holds Money and Goods of at least 0. -/
def MoneyGoodsNonneg (ks : List Kingdom) : Prop :=
  ∀ k ∈ ks, 0 ≤ k.M ∧ 0 ≤ k.G

/-! ## Concrete states used as inputs -/

/-- The state right after the mount effect has run `initGame`. -/
def freshGame : GameState := initGame mountState

/-- Scenario B: the fresh game with the player's resources all at zero. -/
def scenarioB : GameState :=
  { freshGame with
    kingdoms := freshGame.kingdoms.map
      (fun k => if k.isPlayer then { k with M := 0, I := 0, G := 0 } else k) }

/-- The inputs of a three-call game: the player tries Alliance twice and then
raids; every draw is `0`, so both alliances fail and the computer kingdoms take
their first affordable action. -/
def raidAfterTwoFailedAlliances : List (Nat × Draws) :=
  [(7, zeroDraws), (7, zeroDraws), (2, zeroDraws)]

/-- The catalog row of Alliance. -/
def allianceAction : Action := { id := 7, name := "Alliance", cost := [], result := .alliance }

/-- Scenario C: the fresh kingdoms with the player's Influence at 2. -/
def scenarioC : List Kingdom :=
  freshGame.kingdoms.map (fun k => if k.isPlayer then { k with I := 2 } else k)

/-- The fresh kingdoms with the player holding the income buff of one successful
alliance of its own. -/
def alliedKingdoms : List Kingdom :=
  freshGame.kingdoms.map
    (fun k => if k.isPlayer then { k with incomeBuff := { M := 3, I := 1, G := 2 } } else k)

/-- Draws with which the player's Alliance succeeds with the first other kingdom,
and every computer kingdom takes its first affordable action. -/
def allianceDraws : Draws :=
  { partner := 0, success := 3 / 4,
    ai := fun _ => { choice := 0, partner := 0, success := 0 } }

/-! ## Basic facts -/

theorem put_identity (k : Kingdom) (key : Res) (v : Int) :
    (k.put key v).identity = k.identity := by
  cases key <;> rfl

theorem put_incomeBuff (k : Kingdom) (key : Res) (v : Int) :
    (k.put key v).incomeBuff = k.incomeBuff := by
  cases key <;> rfl

theorem put_alliances (k : Kingdom) (key : Res) (v : Int) :
    (k.put key v).alliances = k.alliances := by
  cases key <;> rfl

theorem payCosts_identity (cost : List (Res × Int)) (k : Kingdom) :
    (payCosts k cost).identity = k.identity := by
  induction cost generalizing k with
  | nil => rfl
  | cons c rest ih =>
    simp only [payCosts, List.foldl_cons] at ih ⊢
    rw [ih, put_identity]

theorem applyResult_identity (result : List (Res × Int)) (k : Kingdom) :
    (applyResult k result).identity = k.identity := by
  induction result generalizing k with
  | nil => rfl
  | cons c rest ih =>
    simp only [applyResult, List.foldl_cons] at ih ⊢
    rw [ih, put_identity]

theorem ids_at {ks : List Kingdom} (h : IdsAreIndices ks) {i : Nat} {k : Kingdom}
    (hk : ks[i]? = some k) : k.id = i := by
  have hlt : i < ks.length := (List.getElem?_eq_some.mp hk).1
  have h1 : (ks.map (fun k => k.id))[i]? = (List.range ks.length)[i]? := by rw [h]
  rw [List.getElem?_map, hk, List.getElem?_range hlt] at h1
  simpa using h1

theorem randomIndex_nonneg {r : ℚ} (hr : InUnit r) (len : Nat) : 0 ≤ randomIndex r len := by
  unfold randomIndex
  exact Int.floor_nonneg.mpr (mul_nonneg hr.1 (Nat.cast_nonneg len))

theorem randomIndex_lt {r : ℚ} (hr : InUnit r) {len : Nat} (hlen : 0 < len) :
    randomIndex r len < (len : Int) := by
  unfold randomIndex
  rw [Int.floor_lt]
  have hpos : (0 : ℚ) < (len : ℚ) := by exact_mod_cast hlen
  have := mul_lt_mul_of_pos_right hr.2 hpos
  simpa using this

/-- In a non-empty array the random index of a valid draw hits an element. -/
theorem jsIndex_randomIndex {α : Type} (xs : List α) {r : ℚ} (hr : InUnit r) (hne : xs ≠ []) :
    ∃ x, jsIndex xs (randomIndex r xs.length) = some x ∧ x ∈ xs := by
  have hlen : 0 < xs.length := List.length_pos.mpr hne
  have h0 := randomIndex_nonneg hr xs.length
  have h1 := randomIndex_lt hr hlen
  have hlt : (randomIndex r xs.length).toNat < xs.length := by omega
  refine ⟨xs[(randomIndex r xs.length).toNat], ?_, List.getElem_mem _⟩
  unfold jsIndex
  rw [if_neg (by omega), List.getElem?_eq_getElem hlt]

/-- Whatever the index, an element read from an array is one of its elements. -/
theorem jsIndex_mem {α : Type} {xs : List α} {i : Int} {x : α} (h : jsIndex xs i = some x) :
    x ∈ xs := by
  unfold jsIndex at h
  split at h
  · cases h
  · exact List.mem_iff_getElem?.mpr ⟨_, h⟩

theorem identity_name {k k1 : Kingdom} (h : k1.identity = k.identity) : k1.name = k.name := by
  unfold Kingdom.identity at h
  injection h with _ h2
  injection h2

theorem identity_id {k k1 : Kingdom} (h : k1.identity = k.identity) : k1.id = k.id := by
  unfold Kingdom.identity at h
  injection h

theorem identity_isPlayer {k k1 : Kingdom} (h : k1.identity = k.identity) :
    k1.isPlayer = k.isPlayer := by
  unfold Kingdom.identity at h
  injection h with _ h2
  injection h2 with _ h3
  injection h3

/-- A partner found in `others` sits at a position of the list other than the actor's. -/
theorem othersOf_mem {prev : List Kingdom} {k k0 : Kingdom} {i j : Nat} {p : Kingdom}
    (hk0 : prev[i]? = some k0) (hid : k.id = k0.id) (hmem : (j, p) ∈ othersOf prev k) :
    j ≠ i ∧ prev[j]? = some p ∧ p.id ≠ k0.id := by
  unfold othersOf at hmem
  rw [List.mem_filter] at hmem
  obtain ⟨hin, hne⟩ := hmem
  have hget : prev[j]? = some p := List.mem_enum_iff_getElem?.mp hin
  have hne2 : p.id ≠ k0.id := by
    rw [← hid]
    simpa using hne
  refine ⟨?_, hget, hne2⟩
  intro hji
  subst hji
  rw [hk0] at hget
  injection hget with hkp
  exact hne2 (by rw [hkp])

/-- The shape of every result of `executeAction`: the actor's entry is replaced
by a kingdom of the same identity, at most one other entry (the alliance partner)
has its income buff raised, and exactly one log entry, stamped with the given
turn and starting with the actor's name, is appended. -/
theorem executeAction_shape {turn : Nat} {prev : List Kingdom} {logs : List LogEntry} {i : Nat}
    {a : Action} {rp rs : ℚ} {ks1 : List Kingdom} {logs1 : List LogEntry}
    (h : executeAction turn prev logs i a rp rs = some (ks1, logs1)) :
    ∃ k0 k1 e, prev[i]? = some k0 ∧ k1.identity = k0.identity ∧
      logs1 = logs ++ [e] ∧ e.turn = turn ∧ (∃ rest, e.text = k0.name ++ rest) ∧
      (ks1 = prev.set i k1 ∨
        ∃ j p, j ≠ i ∧ prev[j]? = some p ∧
          ks1 = (prev.set j { p with incomeBuff := partnerBuff p.incomeBuff }).set i k1) := by
  unfold executeAction at h
  cases hk0 : prev[i]? with
  | none => rw [hk0] at h; cases h
  | some k0 =>
    rw [hk0] at h
    have hpay := payCosts_identity a.cost k0
    cases hres : a.result with
    | deltas result =>
      rw [hres] at h
      simp only [Option.some.injEq, Prod.mk.injEq] at h
      obtain ⟨h1, h2⟩ := h
      have hid : (applyResult (payCosts k0 a.cost) result).identity = k0.identity := by
        rw [applyResult_identity, hpay]
      refine ⟨k0, _, _, rfl, hid, h2.symm, rfl, ⟨" used " ++ a.name ++ ".", ?_⟩, Or.inl h1.symm⟩
      simp only [identity_name hid, String.append_assoc]
    | alliance =>
      rw [hres] at h
      simp only at h
      split at h
      · split at h
        · cases h
        · rename_i j p hpartner
          simp only [Option.some.injEq, Prod.mk.injEq] at h
          obtain ⟨h1, h2⟩ := h
          have hmem := jsIndex_mem hpartner
          obtain ⟨hji, hget, _⟩ := othersOf_mem hk0 (identity_id hpay) hmem
          refine ⟨k0, _, _, rfl, ?_, h2.symm, rfl,
            ⟨" formed an alliance with " ++ p.name ++ "!", ?_⟩, Or.inr ⟨j, p, hji, hget, h1.symm⟩⟩
          · exact hpay
          · simp only [identity_name hpay, String.append_assoc]
      · simp only [Option.some.injEq, Prod.mk.injEq] at h
        obtain ⟨h1, h2⟩ := h
        refine ⟨k0, _, _, rfl, ?_, h2.symm, rfl,
          ⟨" alliance failed. Lost 3 Influence.", ?_⟩, Or.inl h1.symm⟩
        · exact hpay
        · simp only [identity_name hpay]

theorem idsAreIndices_iff (ks : List Kingdom) :
    IdsAreIndices ks ↔ ∀ (n : Nat) (k : Kingdom), ks[n]? = some k → k.id = n := by
  constructor
  · intro h n k hk
    exact ids_at h hk
  · intro h
    unfold IdsAreIndices
    apply List.ext_getElem?
    intro n
    rw [List.getElem?_map]
    by_cases hn : n < ks.length
    · rw [List.getElem?_range hn, List.getElem?_eq_getElem hn]
      simp only [Option.map_some', Option.some.injEq]
      exact h n _ (List.getElem?_eq_getElem hn)
    · rw [List.getElem?_eq_none (by omega), List.getElem?_eq_none (by simpa using hn)]
      rfl

theorem actedAt_ids {i : Nat} {ks ks1 : List Kingdom} (h : ActedAt i ks ks1)
    (hids : IdsAreIndices ks) : IdsAreIndices ks1 := by
  rw [idsAreIndices_iff] at hids ⊢
  intro n k1 hk1
  have hn : n < ks.length := by
    rw [← h.1]
    exact (List.getElem?_eq_some.mp hk1).1
  obtain ⟨k2, hk2, hid, _⟩ := h.2 n _ (List.getElem?_eq_getElem hn)
  rw [hk1] at hk2
  injection hk2 with hk2
  subst hk2
  rw [identity_id hid]
  exact hids n _ (List.getElem?_eq_getElem hn)

theorem executeAction_actedAt {turn : Nat} {prev : List Kingdom} {logs : List LogEntry} {i : Nat}
    {a : Action} {rp rs : ℚ} {ks1 : List Kingdom} {logs1 : List LogEntry}
    (h : executeAction turn prev logs i a rp rs = some (ks1, logs1)) : ActedAt i prev ks1 := by
  obtain ⟨k0, k1, e, hk0, hid, _, _, _, hks⟩ := executeAction_shape h
  have hi : i < prev.length := (List.getElem?_eq_some.mp hk0).1
  rcases hks with hks | ⟨j, p, hji, hp, hks⟩
  · subst hks
    refine ⟨by simp, ?_⟩
    intro n k hk
    by_cases hn : n = i
    · subst hn
      rw [hk0] at hk
      injection hk with hk
      subst hk
      exact ⟨k1, by rw [List.getElem?_set_self hi], hid, fun hne => absurd rfl hne⟩
    · refine ⟨k, ?_, rfl, fun _ => rfl⟩
      rw [List.getElem?_set_ne (Ne.symm hn)]
      exact hk
  · subst hks
    have hj : j < prev.length := (List.getElem?_eq_some.mp hp).1
    refine ⟨by simp, ?_⟩
    intro n k hk
    by_cases hn : n = i
    · subst hn
      rw [hk0] at hk
      injection hk with hk
      subst hk
      exact ⟨k1, by rw [List.getElem?_set_self (by simpa using hi)], hid,
        fun hne => absurd rfl hne⟩
    · rw [List.getElem?_set_ne (Ne.symm hn)]
      by_cases hnj : n = j
      · rw [hnj, hp] at hk
        injection hk with hk
        subst hk
        refine ⟨{ p with incomeBuff := partnerBuff p.incomeBuff }, ?_, rfl, fun _ => rfl⟩
        rw [hnj, List.getElem?_set_self hj]
      · refine ⟨k, ?_, rfl, fun _ => rfl⟩
        rw [List.getElem?_set_ne (Ne.symm hnj)]
        exact hk

theorem othersOf_ne_nil {prev : List Kingdom} {k : Kingdom}
    (h : ∃ o ∈ prev, o.id ≠ k.id) : othersOf prev k ≠ [] := by
  obtain ⟨o, ho, hne⟩ := h
  obtain ⟨n, hn⟩ := List.mem_iff_getElem?.mp ho
  have hmem : (n, o) ∈ othersOf prev k := by
    unfold othersOf
    rw [List.mem_filter]
    exact ⟨List.mem_enum_iff_getElem?.mpr hn, by simpa using hne⟩
  exact List.ne_nil_of_mem hmem

/-- In a list of at least two kingdoms whose ids are their indices, every kingdom
has another one beside it. -/
theorem exists_other {prev : List Kingdom} (hids : IdsAreIndices prev) (hlen : 2 ≤ prev.length)
    {i : Nat} {k0 : Kingdom} (hk0 : prev[i]? = some k0) : ∃ o ∈ prev, o.id ≠ k0.id := by
  have hki := ids_at hids hk0
  by_cases hi : i = 0
  · have h1 : prev[1]? = some prev[1] := List.getElem?_eq_getElem (by omega)
    refine ⟨prev[1], List.getElem_mem _, ?_⟩
    rw [ids_at hids h1, hki, hi]
    decide
  · have h0 : prev[0]? = some prev[0] := List.getElem?_eq_getElem (by omega)
    refine ⟨prev[0], List.getElem_mem _, ?_⟩
    rw [ids_at hids h0, hki]
    exact Ne.symm hi

/-- The call `executeAction` returns whenever the actor exists, some kingdom has
another id and the partner draw is a value of `Math.random()`. -/
theorem executeAction_returns (turn : Nat) (prev : List Kingdom) (logs : List LogEntry) (i : Nat)
    (a : Action) (rp rs : ℚ) {k0 : Kingdom} (hk0 : prev[i]? = some k0)
    (hother : ∃ o ∈ prev, o.id ≠ k0.id) (hrp : InUnit rp) :
    ∃ out, executeAction turn prev logs i a rp rs = some out := by
  unfold executeAction
  rw [hk0]
  cases hres : a.result with
  | deltas result => exact ⟨_, rfl⟩
  | alliance =>
    simp only
    have hne : othersOf prev (payCosts k0 a.cost) ≠ [] := by
      apply othersOf_ne_nil
      rw [identity_id (payCosts_identity a.cost k0)]
      exact hother
    obtain ⟨x, hx, _⟩ := jsIndex_randomIndex _ hrp hne
    rw [hx]
    split
    · exact ⟨_, rfl⟩
    · exact ⟨_, rfl⟩

theorem tracks_refl (m : Nat) (ks : List Kingdom) : Tracks m ks ks :=
  ⟨rfl, fun _ k hk => ⟨k, hk, rfl, fun _ => rfl⟩⟩

theorem tracks_step {m i : Nat} {ks cur next : List Kingdom} (h : Tracks m ks cur)
    (hact : ActedAt i cur next) (hm : m ≤ i + 1) : Tracks (i + 1) ks next := by
  refine ⟨by rw [hact.1, h.1], ?_⟩
  intro n k hk
  obtain ⟨k1, hk1, hid1, hres1⟩ := h.2 n k hk
  obtain ⟨k2, hk2, hid2, hres2⟩ := hact.2 n k1 hk1
  refine ⟨k2, hk2, by rw [hid2, hid1], ?_⟩
  intro hn
  rw [hres2 (by omega), hres1 (by omega)]

theorem tracks_mono {m m1 : Nat} {ks cur : List Kingdom} (h : Tracks m ks cur) (hm : m ≤ m1) :
    Tracks m1 ks cur :=
  ⟨h.1, fun n k hk =>
    let ⟨k1, hk1, hid, hres⟩ := h.2 n k hk
    ⟨k1, hk1, hid, fun hn => hres (by omega)⟩⟩

theorem tracks_ids {m : Nat} {ks cur : List Kingdom} (h : Tracks m ks cur)
    (hids : IdsAreIndices ks) : IdsAreIndices cur := by
  rw [idsAreIndices_iff] at hids ⊢
  intro n k1 hk1
  have hn : n < ks.length := by
    rw [← h.1]
    exact (List.getElem?_eq_some.mp hk1).1
  obtain ⟨k2, hk2, hid, _⟩ := h.2 n _ (List.getElem?_eq_getElem hn)
  rw [hk1] at hk2
  injection hk2 with hk2
  subst hk2
  rw [identity_id hid]
  exact hids n _ (List.getElem?_eq_getElem hn)

theorem get_resources {k k1 : Kingdom} (h : k1.resources = k.resources) (key : Res) :
    k1.get key = k.get key := by
  unfold Kingdom.resources at h
  injection h with hM h2
  injection h2 with hI hG
  cases key
  · exact hM
  · exact hI
  · exact hG

/-- Affordability depends on the three resource amounts only. -/
theorem canPay_resources {k k1 : Kingdom} (h : k1.resources = k.resources)
    (cost : List (Res × Int)) : canPay k1 cost = canPay k cost := by
  unfold canPay
  congr 1
  funext c
  rw [get_resources h]

/-- An action the Decision Policy returns is a catalog action the captured
kingdom can pay. -/
theorem chooseAction_some {aiK : Kingdom} {r : ℚ} {act : Action}
    (h : chooseAction aiK r = some act) : act ∈ ACTIONS ∧ canPay aiK act.cost = true := by
  unfold chooseAction at h
  have hmem := jsIndex_mem h
  unfold affordableActions at hmem
  rw [List.mem_filter] at hmem
  exact hmem

/-- For a valid draw the Decision Policy returns no action only if the captured
kingdom can pay for no catalog action. -/
theorem chooseAction_none {aiK : Kingdom} {r : ℚ} (hr : InUnit r)
    (h : chooseAction aiK r = none) : ∀ act ∈ ACTIONS, canPay aiK act.cost = false := by
  intro act hact
  by_contra hpay
  have hmem : act ∈ affordableActions aiK := by
    unfold affordableActions
    rw [List.mem_filter]
    exact ⟨hact, by simpa using hpay⟩
  obtain ⟨x, hx, _⟩ := jsIndex_randomIndex (affordableActions aiK) hr (List.ne_nil_of_mem hmem)
  unfold chooseAction at h
  rw [h] at hx
  cases hx

/-- One kingdom's action on a tracked list: the call returns, the list stays
tracked one position further, and one log entry naming the kingdom is appended. -/
theorem executeAction_tracked (turn : Nat) {ks : List Kingdom} (cur : List Kingdom × List LogEntry)
    (a : Action) (rp rs : ℚ) {m j : Nat} {k : Kingdom}
    (hids : IdsAreIndices ks) (hlen : 2 ≤ ks.length) (htr : Tracks m ks cur.1) (hm : m ≤ j + 1)
    (hk : ks[j]? = some k) (hrp : InUnit rp) :
    ∃ next e rest, executeAction turn cur.1 cur.2 j a rp rs = some next ∧
      Tracks (j + 1) ks next.1 ∧ next.2 = cur.2 ++ [e] ∧ e.turn = turn ∧
      e.text = k.name ++ rest := by
  obtain ⟨curK, hcurK, hid, _⟩ := htr.2 j k hk
  have hother := exists_other (tracks_ids htr hids) (by rw [htr.1]; exact hlen) hcurK
  obtain ⟨⟨ks1, logs1⟩, hout⟩ :=
    executeAction_returns turn cur.1 cur.2 j a rp rs hcurK hother hrp
  obtain ⟨k0, k1, e, hk0, _, hlog, hturn, ⟨rest, htext⟩, _⟩ := executeAction_shape hout
  rw [hcurK] at hk0
  injection hk0 with hk0
  subst hk0
  refine ⟨(ks1, logs1), e, rest, hout, tracks_step htr (executeAction_actedAt hout) hm, hlog, hturn, ?_⟩
  rw [htext, identity_name hid]

theorem aiTurn_tracked (turn : Nat) {ks : List Kingdom} (cur : List Kingdom × List LogEntry)
    (d : AIDraw) {m j : Nat} {aiK : Kingdom}
    (hids : IdsAreIndices ks) (hlen : 2 ≤ ks.length) (htr : Tracks m ks cur.1) (hm : m ≤ j + 1)
    (hk : ks[j]? = some aiK) (hrp : InUnit d.partner) :
    ∃ next e rest, aiTurn turn aiK d cur = some next ∧
      Tracks (j + 1) ks next.1 ∧ next.2 = cur.2 ++ [e] ∧ e.turn = turn ∧
      e.text = aiK.name ++ rest := by
  unfold aiTurn
  cases hch : chooseAction aiK d.choice with
  | none =>
    exact ⟨_, _, " waits (No resources).", rfl, tracks_mono htr (by omega), rfl, rfl, rfl⟩
  | some act =>
    simp only
    rw [ids_at hids hk]
    exact executeAction_tracked turn cur act d.partner d.success hids hlen htr hm hk hrp

/-- The AI loop over captured kingdoms `xs` that sit at positions `i + 1`,
`i + 2`, ... of the captured list: it returns, the list stays tracked, and the log
grows by one entry per kingdom, in order, each stamped `turn` and naming its
kingdom. -/
theorem aiLoop_tracked (turn : Nat) (ai : Nat → AIDraw) {ks : List Kingdom}
    (hids : IdsAreIndices ks) (hlen : 2 ≤ ks.length) (hai : ∀ i, InUnit (ai i).partner) :
    ∀ (xs : List Kingdom) (i : Nat) (cur : List Kingdom × List LogEntry),
      (∀ (t : Nat) (aiK : Kingdom), xs[t]? = some aiK → ks[i + 1 + t]? = some aiK) →
      Tracks (i + 1) ks cur.1 →
      ∃ out entries, aiLoop turn ai xs i cur = some out ∧
        Tracks (i + 1 + xs.length) ks out.1 ∧ out.2 = cur.2 ++ entries ∧
        entries.length = xs.length ∧
        ∀ (t : Nat) (aiK : Kingdom), xs[t]? = some aiK →
          ∃ e rest, entries[t]? = some e ∧ e.turn = turn ∧ e.text = aiK.name ++ rest := by
  intro xs
  induction xs with
  | nil =>
    intro i cur _ htr
    refine ⟨cur, [], rfl, htr, by simp, rfl, ?_⟩
    intro t aiK h
    simp at h
  | cons aiK rest ih =>
    intro i cur hx htr
    have hk : ks[i + 1]? = some aiK := hx 0 aiK (by simp)
    obtain ⟨next, e, r, hnext, htr1, hlog1, hturn1, htext1⟩ :=
      aiTurn_tracked turn cur (ai i) hids hlen htr (Nat.le_succ _) hk (hai i)
    have hx1 : ∀ (t : Nat) (k : Kingdom), rest[t]? = some k → ks[i + 1 + 1 + t]? = some k := by
      intro t k h
      have := hx (t + 1) k (by simpa using h)
      rw [show i + 1 + (t + 1) = i + 1 + 1 + t by omega] at this
      exact this
    obtain ⟨out, entries, hout, htr2, hlog2, hlen2, hent⟩ := ih (i + 1) next hx1 htr1
    refine ⟨out, e :: entries, ?_, ?_, ?_, by simp [hlen2], ?_⟩
    · simp only [aiLoop, hnext]
      exact hout
    · rw [show i + 1 + (aiK :: rest).length = i + 1 + 1 + rest.length by simp; omega]
      exact htr2
    · rw [hlog2, hlog1]
      simp
    · intro t k h
      cases t with
      | zero =>
        simp only [List.getElem?_cons_zero, Option.some.injEq] at h
        subst h
        exact ⟨e, r, by simp, hturn1, htext1⟩
      | succ t =>
        simp only [List.getElem?_cons_succ] at h ⊢
        exact hent t k h

/-- Looking a catalog action up by its own id finds it. -/
theorem find_action {a : Action} (h : a ∈ ACTIONS) : findAction a.id = some a := by
  simp only [ACTIONS, List.mem_cons, List.mem_singleton, List.not_mem_nil, or_false] at h
  rcases h with h | h | h | h | h | h | h <;> subst h <;> rfl

/-- Steps 1 and 2 of a call on a well-formed state: every `executeAction` returns,
and the log grows by one entry per kingdom in list order, each stamped with the
turn of the call and naming its kingdom. -/
theorem actPhase_tracked (s : GameState) (a : Action) (d : Draws)
    (hids : IdsAreIndices s.kingdoms) (hlen : 2 ≤ s.kingdoms.length) (hd : d.Valid) :
    ∃ out entries, actPhase s a d = some out ∧ Tracks s.kingdoms.length s.kingdoms out.1 ∧
      out.2 = s.logs ++ entries ∧ entries.length = s.kingdoms.length ∧
      ∀ (n : Nat) (k : Kingdom), s.kingdoms[n]? = some k →
        ∃ e rest, entries[n]? = some e ∧ e.turn = s.turn ∧ e.text = k.name ++ rest := by
  have hp : s.kingdoms[0]? = some s.kingdoms[0] := List.getElem?_eq_getElem (by omega)
  obtain ⟨next, e, r, hnext, htr1, hlog1, hturn1, htext1⟩ :=
    executeAction_tracked s.turn (s.kingdoms, s.logs) a d.partner d.success hids hlen
      (tracks_refl 0 s.kingdoms) (Nat.zero_le _) hp hd.1
  have hx : ∀ (t : Nat) (k : Kingdom), (s.kingdoms.drop 1)[t]? = some k →
      s.kingdoms[0 + 1 + t]? = some k := by
    intro t k h
    rw [List.getElem?_drop] at h
    rw [Nat.zero_add]
    exact h
  obtain ⟨out, entries, hout, htr2, hlog2, hlen2, hent⟩ :=
    aiLoop_tracked s.turn d.ai hids hlen (fun i => (hd.2.2 i).2.1) (s.kingdoms.drop 1) 0 next hx htr1
  have hl : (s.kingdoms.drop 1).length = s.kingdoms.length - 1 := by simp
  refine ⟨out, e :: entries, ?_, ?_, ?_, ?_, ?_⟩
  · unfold actPhase
    simp only at hnext
    rw [hnext]
    exact hout
  · rw [hl] at htr2
    rw [show s.kingdoms.length = 0 + 1 + (s.kingdoms.length - 1) by omega]
    exact htr2
  · rw [hlog2, hlog1]
    simp
  · simp only [List.length_cons, hlen2, hl]
    omega
  · intro n k hk
    cases n with
    | zero =>
      rw [hp] at hk
      injection hk with hk
      subst hk
      exact ⟨e, r, by simp, hturn1, htext1⟩
    | succ n =>
      simp only [List.getElem?_cons_succ]
      apply hent n k
      rw [List.getElem?_drop, Nat.add_comm]
      exact hk

/-- The handler on an accepted call, in terms of `actPhase`. -/
theorem handlePlayerAction_accepted {s : GameState} {a : Action} {d : Draws} {player : Kingdom}
    {out : List Kingdom × List LogEntry}
    (hidle : s.isProcessing = false) (ha : a ∈ ACTIONS) (hp : s.kingdoms[0]? = some player)
    (hpay : canPay player a.cost = true) (hact : actPhase s a d = some out) :
    handlePlayerAction s a.id d =
      some { kingdoms := out.1.map endTurnIncome, turn := s.turn + 1, logs := out.2,
             isProcessing := false } := by
  unfold handlePlayerAction
  rw [hidle, find_action ha]
  simp only [Bool.false_eq_true, if_false, hp, hpay, Bool.not_true, hact]

theorem aiLoop_cons (turn : Nat) (ai : Nat → AIDraw) (aiK : Kingdom) (rest : List Kingdom)
    (i : Nat) (cur : List Kingdom × List LogEntry) :
    aiLoop turn ai (aiK :: rest) i cur =
      (aiTurn turn aiK (ai i) cur).bind (aiLoop turn ai rest (i + 1)) := by
  simp only [aiLoop]
  cases aiTurn turn aiK (ai i) cur <;> rfl

/-- The loop over `xs ++ ys` is the loop over `xs` followed by the loop over `ys`
with the counter moved on. -/
theorem aiLoop_append (turn : Nat) (ai : Nat → AIDraw) (ys : List Kingdom) :
    ∀ (xs : List Kingdom) (i : Nat) (cur : List Kingdom × List LogEntry),
      aiLoop turn ai (xs ++ ys) i cur =
        (aiLoop turn ai xs i cur).bind (aiLoop turn ai ys (i + xs.length)) := by
  intro xs
  induction xs with
  | nil =>
    intro i cur
    rfl
  | cons x rest ih =>
    intro i cur
    rw [List.cons_append, aiLoop_cons, aiLoop_cons]
    cases aiTurn turn x (ai i) cur with
    | none => rfl
    | some next =>
      simp only [Option.some_bind, List.length_cons]
      rw [ih (i + 1) next, show i + 1 + rest.length = i + (rest.length + 1) by omega]

/-! ## Every state of a game is well formed -/

theorem endTurnIncome_id (k : Kingdom) : (endTurnIncome k).id = k.id := by
  unfold endTurnIncome
  split <;> rfl

theorem idsAreIndices_income {ks : List Kingdom} (h : IdsAreIndices ks) :
    IdsAreIndices (ks.map endTurnIncome) := by
  unfold IdsAreIndices at h ⊢
  rw [List.map_map, List.length_map]
  have hf : ((fun k => k.id) ∘ endTurnIncome) = (fun k : Kingdom => k.id) := by
    funext k
    exact endTurnIncome_id k
  rw [hf]
  exact h

theorem aiTurn_ids {turn : Nat} {aiK : Kingdom} {d : AIDraw}
    {cur next : List Kingdom × List LogEntry} (h : aiTurn turn aiK d cur = some next)
    (hids : IdsAreIndices cur.1) : IdsAreIndices next.1 ∧ next.1.length = cur.1.length := by
  unfold aiTurn at h
  split at h
  · have hact : ActedAt aiK.id cur.1 next.1 :=
      @executeAction_actedAt _ _ _ _ _ _ _ next.1 next.2 h
    exact ⟨actedAt_ids hact hids, hact.1⟩
  · injection h with h
    subst h
    exact ⟨hids, rfl⟩

theorem aiLoop_ids (turn : Nat) (ai : Nat → AIDraw) :
    ∀ (xs : List Kingdom) (i : Nat) (cur out : List Kingdom × List LogEntry),
      aiLoop turn ai xs i cur = some out → IdsAreIndices cur.1 →
      IdsAreIndices out.1 ∧ out.1.length = cur.1.length := by
  intro xs
  induction xs with
  | nil =>
    intro i cur out h hids
    simp only [aiLoop, Option.some.injEq] at h
    subst h
    exact ⟨hids, rfl⟩
  | cons x rest ih =>
    intro i cur out h hids
    rw [aiLoop_cons] at h
    cases hturn : aiTurn turn x (ai i) cur with
    | none =>
      rw [hturn] at h
      cases h
    | some next =>
      rw [hturn, Option.some_bind] at h
      obtain ⟨h1, h2⟩ := aiTurn_ids hturn hids
      obtain ⟨h3, h4⟩ := ih (i + 1) next out h h1
      exact ⟨h3, by rw [h4, h2]⟩

/-- Whatever a call returns, it keeps the ids equal to the indices, the number of
kingdoms, and an idle processing flag. -/
theorem handlePlayerAction_wellFormed {s s1 : GameState} {actionId : Nat} {d : Draws}
    (h : handlePlayerAction s actionId d = some s1) (hids : IdsAreIndices s.kingdoms)
    (hidle : s.isProcessing = false) :
    IdsAreIndices s1.kingdoms ∧ s1.kingdoms.length = s.kingdoms.length ∧
      s1.isProcessing = false := by
  unfold handlePlayerAction at h
  rw [hidle] at h
  simp only [Bool.false_eq_true, if_false] at h
  split at h
  · cases h
  · split at h
    · cases h
    · split at h
      · injection h with h
        subst h
        exact ⟨hids, rfl, hidle⟩
      · split at h
        · cases h
        · rename_i acted logs hact
          injection h with h
          subst h
          unfold actPhase at hact
          split at hact
          · cases hact
          · rename_i afterPlayer hplayer
            have hp : ActedAt 0 s.kingdoms afterPlayer.1 :=
              @executeAction_actedAt _ _ _ _ _ _ _ afterPlayer.1 afterPlayer.2 hplayer
            obtain ⟨h1, h2⟩ := aiLoop_ids _ _ _ _ _ _ hact (actedAt_ids hp hids)
            simp only at h1 h2
            refine ⟨idsAreIndices_income h1, ?_, rfl⟩
            simp only [List.length_map]
            rw [h2, hp.1]

/-- Every state of a game started by `initGame` is idle and has four kingdoms whose
ids are their indices. -/
theorem play_wellFormed (inputs : List (Nat × Draws)) :
    ∀ (s s1 : GameState), play s inputs = some s1 → IdsAreIndices s.kingdoms →
      s.isProcessing = false →
      IdsAreIndices s1.kingdoms ∧ s1.kingdoms.length = s.kingdoms.length ∧
        s1.isProcessing = false := by
  induction inputs with
  | nil =>
    intro s s1 h hids hidle
    simp only [play, Option.some.injEq] at h
    subst h
    exact ⟨hids, rfl, hidle⟩
  | cons x rest ih =>
    intro s s1 h hids hidle
    obtain ⟨actionId, d⟩ := x
    simp only [play] at h
    split at h
    · cases h
    · rename_i s2 hstep
      obtain ⟨h1, h2, h3⟩ := handlePlayerAction_wellFormed hstep hids hidle
      obtain ⟨h4, h5, h6⟩ := ih s2 s1 h h1 h3
      exact ⟨h4, by rw [h5, h2], h6⟩

/-! ## The claims -/

/-- C1. The code does not keep every resource non-negative in all reachable
states: from `initGame`, three accepted calls (two failed Alliances, then Raid)
reach turn 4 with the player's Influence at `-1`, because the standard-action
path adds the result delta `I: -1` without the clamp at zero that the
alliance-failure and income paths apply. -/
theorem reachable_state_with_negative_influence :
    (play (initGame mountState) raidAfterTwoFailedAlliances).map
        (fun s => (s.turn, s.isProcessing, s.kingdoms.map Kingdom.resources)) =
      some (4, false, [(12, -1, 6), (4, 11, 6), (6, 11, 6), (8, 11, 6)]) := by
  decide!

/-- C2. A call made while the processing flag is set, or for a catalog action
whose cost the player kingdom cannot pay, returns the state it was given:
kingdoms, turn, log and processing flag are all unchanged. -/
theorem rejected_call_changes_nothing (s : GameState) (a : Action) (d : Draws)
    (ha : a ∈ ACTIONS)
    (hrej : s.isProcessing = true ∨
      ∃ player, s.kingdoms[0]? = some player ∧ canPay player a.cost = false) :
    handlePlayerAction s a.id d = some s := by
  unfold handlePlayerAction
  rcases hrej with hbusy | ⟨player, hp, hpay⟩
  · rw [if_pos hbusy]
  · by_cases hbusy : s.isProcessing = true
    · rw [if_pos hbusy]
    · rw [if_neg hbusy, find_action ha]
      simp only [hp, hpay, Bool.not_false, if_true]

theorem rejected_call_changes_nothing_witness :
    (scenarioB.isProcessing = true ∨
      ∃ player, scenarioB.kingdoms[0]? = some player ∧
        canPay player [(Res.M, 2)] = false) ∧
    handlePlayerAction scenarioB 1 zeroDraws = some scenarioB :=
  ⟨Or.inr ⟨_, rfl, by decide⟩,
   rejected_call_changes_nothing scenarioB
     { id := 1, name := "Mobilize", cost := [(Res.M, 2)], result := .deltas [(Res.I, 2)] }
     zeroDraws (by decide) (Or.inr ⟨_, rfl, by decide⟩)⟩

/-- C3. On the fresh player (8, 5, 6) Trade gives (11, 4, 7) as claimed, but the
result is not clamped: for the player at (8, 0, 6), reached after two failed
Alliances, Raid gives Influence `0 + (-1) = -1`, where the claim requires
`max 0 (0 - 0 + (-1)) = 0`. -/
theorem raid_result_is_not_clamped :
    ((findAction 4).bind (fun trade =>
        executeAction 1 freshGame.kingdoms freshGame.logs 0 trade 0 0)).bind
        (fun out => out.1[0]?.map Kingdom.resources) = some (11, 4, 7) ∧
    (play freshGame [(7, zeroDraws), (7, zeroDraws)]).bind
        (fun s => s.kingdoms[0]?.map Kingdom.resources) = some (8, 0, 6) ∧
    ((play freshGame [(7, zeroDraws), (7, zeroDraws)]).bind (fun s =>
        (findAction 2).bind (fun raid =>
          executeAction s.turn s.kingdoms s.logs 0 raid 0 0))).bind
        (fun out => out.1[0]?.map Kingdom.resources) = some (12, -1, 6) ∧
    max (0 : Int) (0 - 0 + (-1)) = 0 := by
  decide!

/-- C9. Whatever the previous state, `initGame` installs four kingdoms with ids
0..3 in order, kingdom `i` holding M = 8 + 2 i, I = 5, G = 6, no alliances, a
zero income buff and the player flag exactly for `i = 0`; the turn is 1, the
processing flag is off and the log is one `system` entry stamped turn 1. -/
theorem initGame_state (prev : GameState) :
    (initGame prev).kingdoms.map
        (fun k => (k.id, k.M, k.I, k.G, k.alliances, k.incomeBuff, k.isPlayer)) =
      (List.range 4).map
        (fun (i : Nat) =>
          (i, 8 + 2 * (i : Int), 5, 6, [], ({ M := 0, I := 0, G := 0 } : IncomeBuff), i == 0)) ∧
    (initGame prev).kingdoms.map (fun k => k.name) =
      ["Northrealm", "Duskfall", "Eastwind", "Southmarch"] ∧
    (initGame prev).turn = 1 ∧
    (initGame prev).isProcessing = false ∧
    (initGame prev).logs =
      [{ turn := 1, text := "The Age of Four Winds begins. Choose your path wisely.",
         typ := "system" }] := by
  refine ⟨by rfl, by rfl, rfl, rfl, rfl⟩

/-- The only catalog action with the alliance marker is Alliance, which is free. -/
theorem alliance_of_mem {a : Action} (ha : a ∈ ACTIONS) (hres : a.result = .alliance) :
    a = { id := 7, name := "Alliance", cost := [], result := .alliance } := by
  simp only [ACTIONS, List.mem_cons, List.mem_singleton, List.not_mem_nil, or_false] at ha
  rcases ha with h | h | h | h | h | h | h <;> subst h <;> first | rfl | cases hres

/-- C4. Alliance with a success draw above 0.5: the partner is a kingdom at
another position with another id; the actor's income buff grows by (3, 1, 2) and
its alliance list gains the partner's name at the end; the partner's buff grows
by (2, 1, 1); nothing else changes in any kingdom (so no M, I or G changes); and
the entry `<actor> formed an alliance with <partner>!` is logged, as `success`
for the player and `info` otherwise. -/
theorem alliance_success (turn : Nat) (ks : List Kingdom) (logs : List LogEntry) (i : Nat)
    (k0 : Kingdom) (a : Action) (rp rs : ℚ)
    (ha : a ∈ ACTIONS) (hres : a.result = .alliance) (hk0 : ks[i]? = some k0)
    (hother : ∃ o ∈ ks, o.id ≠ k0.id) (hrp : InUnit rp) (hrs : rs > 1 / 2) :
    ∃ j p ks1,
      j ≠ i ∧ ks[j]? = some p ∧ p.id ≠ k0.id ∧
      executeAction turn ks logs i a rp rs =
        some (ks1, logs ++
          [{ turn := turn
             text := k0.name ++ " formed an alliance with " ++ p.name ++ "!"
             typ := if k0.isPlayer then "success" else "info" }]) ∧
      ks1.length = ks.length ∧
      ks1[i]? = some
        { k0 with
          incomeBuff :=
            { M := k0.incomeBuff.M + 3, I := k0.incomeBuff.I + 1, G := k0.incomeBuff.G + 2 }
          alliances := k0.alliances ++ [p.name] } ∧
      ks1[j]? = some
        { p with
          incomeBuff :=
            { M := p.incomeBuff.M + 2, I := p.incomeBuff.I + 1, G := p.incomeBuff.G + 1 } } ∧
      ∀ n, n ≠ i → n ≠ j → ks1[n]? = ks[n]? := by
  have hi : i < ks.length := (List.getElem?_eq_some.mp hk0).1
  obtain ⟨⟨j, p⟩, hx, hmem⟩ :=
    jsIndex_randomIndex (othersOf ks k0) hrp (othersOf_ne_nil hother)
  obtain ⟨hji, hp, hpid⟩ := othersOf_mem hk0 rfl hmem
  have hj : j < ks.length := (List.getElem?_eq_some.mp hp).1
  refine ⟨j, p,
    (ks.set j { p with incomeBuff := partnerBuff p.incomeBuff }).set i
      { k0 with incomeBuff := actorBuff k0.incomeBuff, alliances := k0.alliances ++ [p.name] },
    hji, hp, hpid, ?_, ?_, ?_, ?_, ?_⟩
  · rw [alliance_of_mem ha hres]
    unfold executeAction
    rw [hk0]
    simp only [payCosts, List.foldl_nil, hx, if_pos hrs, addLog]
  · simp
  · rw [List.getElem?_set_self (by simpa using hi)]
    rfl
  · rw [List.getElem?_set_ne (Ne.symm hji), List.getElem?_set_self hj]
    rfl
  · intro n hni hnj
    rw [List.getElem?_set_ne (Ne.symm hni), List.getElem?_set_ne (Ne.symm hnj)]

/-- C5. Alliance with a success draw of at most 0.5 (0.5 included): only the
actor's entry changes, and in it only Influence, which becomes
`max 0 (I - 3)`; one entry `<actor> alliance failed. Lost 3 Influence.` of
category `error` is appended; from Influence 2 the result is 0. -/
theorem alliance_failure (turn : Nat) (ks : List Kingdom) (logs : List LogEntry) (i : Nat)
    (k0 : Kingdom) (a : Action) (rp rs : ℚ)
    (ha : a ∈ ACTIONS) (hres : a.result = .alliance) (hk0 : ks[i]? = some k0)
    (hrs : rs ≤ 1 / 2) :
    executeAction turn ks logs i a rp rs =
      some (ks.set i { k0 with I := max 0 (k0.I - 3) },
        logs ++ [{ turn := turn
                   text := k0.name ++ " alliance failed. Lost 3 Influence."
                   typ := "error" }]) ∧
    (k0.I = 2 → (ks.set i { k0 with I := max 0 (k0.I - 3) })[i]?.map (fun k => k.I) = some 0) := by
  have hi : i < ks.length := (List.getElem?_eq_some.mp hk0).1
  constructor
  · rw [alliance_of_mem ha hres]
    unfold executeAction
    rw [hk0]
    simp only [payCosts, List.foldl_nil, if_neg (not_lt.mpr hrs), addLog]
  · intro h2
    rw [List.getElem?_set_self hi, h2]
    rfl

theorem alliance_success_witness :
    ∃ j p ks1, j ≠ 0 ∧ freshGame.kingdoms[j]? = some p ∧
      executeAction 1 freshGame.kingdoms freshGame.logs 0 allianceAction 0 (3 / 4) =
        some (ks1, freshGame.logs ++
          [{ turn := 1
             text := "Northrealm" ++ " formed an alliance with " ++ p.name ++ "!"
             typ := "success" }]) ∧
      ks1[0]?.map (fun k => (k.incomeBuff, k.alliances)) =
        some ({ M := 3, I := 1, G := 2 }, [p.name]) := by
  obtain ⟨j, p, ks1, hj, hp, _, hex, _, h0, _, _⟩ :=
    alliance_success 1 freshGame.kingdoms freshGame.logs 0 (initialKingdom "Northrealm" 0)
      allianceAction 0 (3 / 4) (by decide) rfl rfl
      ⟨initialKingdom "Duskfall" 1, by decide, by decide⟩ (by decide!) (by decide!)
  exact ⟨j, p, ks1, hj, hp, hex, by rw [h0]; rfl⟩

theorem alliance_failure_witness :
    executeAction 1 scenarioC [] 0 allianceAction 0 (1 / 2) =
      some (scenarioC.set 0 { initialKingdom "Northrealm" 0 with I := 0 },
        [{ turn := 1, text := "Northrealm alliance failed. Lost 3 Influence.", typ := "error" }]) :=
  (alliance_failure 1 scenarioC [] 0 { initialKingdom "Northrealm" 0 with I := 2 }
    allianceAction 0 (1 / 2) (by decide) rfl rfl (le_refl _)).1

/-- C6 (as stated, refuted). In the third call of the game of C1 the kingdom list
handed to the income step has the player at Influence `-1` with a zero buff; the
step leaves that Influence at `-1`, not at `max 0 (-1 + 0) = 0`. -/
theorem income_skips_kingdom_without_buff :
    ((play freshGame [(7, zeroDraws), (7, zeroDraws)]).bind (fun s =>
        (findAction 2).bind (fun raid => actPhase s raid zeroDraws))).map
      (fun out =>
        (out.1.map (fun k => (k.I, k.incomeBuff.I, max 0 (k.I + k.incomeBuff.I))),
         (out.1.map endTurnIncome).map (fun k => k.I))) =
      some ([(-1, 0, 0), (11, 0, 11), (11, 0, 11), (11, 0, 11)], [-1, 11, 11, 11]) := by
  decide!

/-- C6 (amended). The income step maps every kingdom once: identity, income buff
and alliance list stay; a kingdom with some non-zero buff component gets each
resource set to `max 0 (value + buff)`; a kingdom whose buffs are all zero is
left exactly as it is, which agrees with `max 0 (value + buff)` for every
resource that is not negative. -/
theorem income_settlement (ks : List Kingdom) (n : Nat) (k : Kingdom)
    (hk : ks[n]? = some k) :
    (ks.map endTurnIncome).length = ks.length ∧
    ∃ k1, (ks.map endTurnIncome)[n]? = some k1 ∧
      k1.incomeBuff = k.incomeBuff ∧ k1.alliances = k.alliances ∧
      k1.id = k.id ∧ k1.name = k.name ∧ k1.color = k.color ∧ k1.isPlayer = k.isPlayer ∧
      ((k.incomeBuff.M ≠ 0 ∨ k.incomeBuff.I ≠ 0 ∨ k.incomeBuff.G ≠ 0) →
        k1.M = max 0 (k.M + k.incomeBuff.M) ∧ k1.I = max 0 (k.I + k.incomeBuff.I) ∧
          k1.G = max 0 (k.G + k.incomeBuff.G)) ∧
      ((k.incomeBuff.M = 0 ∧ k.incomeBuff.I = 0 ∧ k.incomeBuff.G = 0) → k1 = k) ∧
      (0 ≤ k.M → k1.M = max 0 (k.M + k.incomeBuff.M)) ∧
      (0 ≤ k.I → k1.I = max 0 (k.I + k.incomeBuff.I)) ∧
      (0 ≤ k.G → k1.G = max 0 (k.G + k.incomeBuff.G)) := by
  refine ⟨by simp, endTurnIncome k, by rw [List.getElem?_map, hk]; rfl, ?_⟩
  unfold endTurnIncome
  by_cases hb : k.incomeBuff.M ≠ 0 ∨ k.incomeBuff.I ≠ 0 ∨ k.incomeBuff.G ≠ 0
  · rw [if_pos hb]
    refine ⟨rfl, rfl, rfl, rfl, rfl, rfl, fun _ => ⟨rfl, rfl, rfl⟩, ?_, fun _ => rfl,
      fun _ => rfl, fun _ => rfl⟩
    intro hz
    rcases hb with h | h | h
    · exact absurd hz.1 h
    · exact absurd hz.2.1 h
    · exact absurd hz.2.2 h
  · rw [if_neg hb]
    have hM : k.incomeBuff.M = 0 := by
      by_contra h
      exact hb (Or.inl h)
    have hI : k.incomeBuff.I = 0 := by
      by_contra h
      exact hb (Or.inr (Or.inl h))
    have hG : k.incomeBuff.G = 0 := by
      by_contra h
      exact hb (Or.inr (Or.inr h))
    refine ⟨rfl, rfl, rfl, rfl, rfl, rfl, fun h => absurd h hb, fun _ => rfl, ?_, ?_, ?_⟩
    · intro h
      rw [hM, add_zero, max_eq_right h]
    · intro h
      rw [hI, add_zero, max_eq_right h]
    · intro h
      rw [hG, add_zero, max_eq_right h]

theorem income_settlement_witness :
    ∃ k1, (alliedKingdoms.map endTurnIncome)[0]? = some k1 ∧
      k1.M = max 0 (8 + 3) ∧ k1.I = max 0 (5 + 1) ∧ k1.G = max 0 (6 + 2) := by
  obtain ⟨_, k1, h1, _, _, _, _, _, _, hnz, _⟩ :=
    income_settlement alliedKingdoms 0
      { initialKingdom "Northrealm" 0 with incomeBuff := { M := 3, I := 1, G := 2 } } rfl
  exact ⟨k1, h1, hnz (Or.inl (by decide))⟩

theorem inUnit_zero : InUnit 0 := ⟨le_refl 0, zero_lt_one⟩

theorem zeroDraws_valid : zeroDraws.Valid :=
  ⟨inUnit_zero, inUnit_zero, fun _ => ⟨inUnit_zero, inUnit_zero, inUnit_zero⟩⟩

/-- The fresh player can pay for every catalog action. -/
theorem canPay_fresh_player {a : Action} (ha : a ∈ ACTIONS) :
    canPay (initialKingdom "Northrealm" 0) a.cost = true := by
  simp only [ACTIONS, List.mem_cons, List.mem_singleton, List.not_mem_nil, or_false] at ha
  rcases ha with h | h | h | h | h | h | h <;> subst h <;> decide

/-- An accepted call on a well-formed idle state returns, with the turn advanced
by one and the processing flag off. -/
theorem handlePlayerAction_returns {s : GameState} {a : Action} {d : Draws} {player : Kingdom}
    (hidle : s.isProcessing = false) (hids : IdsAreIndices s.kingdoms)
    (hlen : 2 ≤ s.kingdoms.length) (ha : a ∈ ACTIONS) (hp : s.kingdoms[0]? = some player)
    (hpay : canPay player a.cost = true) (hd : d.Valid) :
    ∃ s1, handlePlayerAction s a.id d = some s1 ∧ s1.turn = s.turn + 1 ∧
      s1.isProcessing = false := by
  obtain ⟨out, _, hact, _⟩ := actPhase_tracked s a d hids hlen hd
  exact ⟨_, handlePlayerAction_accepted hidle ha hp hpay hact, rfl, rfl⟩

/-- C7. On an idle state whose kingdoms carry their indices as ids (at least
two of them), a call for a catalog action the player can pay, with draws that
`Math.random()` can return, runs to completion: the turn is the previous turn
plus one and the processing flag is off. From the state `initGame` installs the
turn becomes 2. -/
theorem accepted_call_advances_turn (s : GameState) (a : Action) (d : Draws) (player : Kingdom)
    (hidle : s.isProcessing = false) (hids : IdsAreIndices s.kingdoms)
    (hlen : 2 ≤ s.kingdoms.length) (ha : a ∈ ACTIONS) (hp : s.kingdoms[0]? = some player)
    (hpay : canPay player a.cost = true) (hd : d.Valid) :
    (∃ s1, handlePlayerAction s a.id d = some s1 ∧ s1.turn = s.turn + 1 ∧
      s1.isProcessing = false) ∧
    (∃ s2, handlePlayerAction (initGame s) a.id d = some s2 ∧ s2.turn = 2 ∧
      s2.isProcessing = false) := by
  constructor
  · exact handlePlayerAction_returns hidle hids hlen ha hp hpay hd
  · have hfresh : (initGame s).kingdoms[0]? = some (initialKingdom "Northrealm" 0) := rfl
    have hfour : 2 ≤ (initGame s).kingdoms.length := by
      show 2 ≤ 4
      decide
    have hidsFresh : IdsAreIndices (initGame s).kingdoms := by rfl
    exact @handlePlayerAction_returns (initGame s) a d (initialKingdom "Northrealm" 0) rfl
      hidsFresh hfour ha hfresh (canPay_fresh_player ha) hd

theorem accepted_call_advances_turn_witness :
    ∃ s1, handlePlayerAction freshGame 4 zeroDraws = some s1 ∧ s1.turn = 2 ∧
      s1.isProcessing = false :=
  (accepted_call_advances_turn freshGame
    { id := 4, name := "Trade", cost := [(Res.I, 1)], result := .deltas [(Res.M, 3), (Res.G, 1)] }
    zeroDraws (initialKingdom "Northrealm" 0) rfl (by decide) (by decide) (by decide) rfl
    (by decide) zeroDraws_valid).1

/-- C10. An accepted call leaves the old log as a prefix and appends one entry
per kingdom in list order, so first the entry naming the player (id 0), then the
entries naming kingdoms 1, 2, ... in ascending id order, each stamped with the
turn in effect when the call began; the income step is applied to the kingdom
list that results from all these actions. -/
theorem call_appends_log_in_acting_order (s : GameState) (a : Action) (d : Draws)
    (player : Kingdom)
    (hidle : s.isProcessing = false) (hids : IdsAreIndices s.kingdoms)
    (hlen : 2 ≤ s.kingdoms.length) (ha : a ∈ ACTIONS) (hp : s.kingdoms[0]? = some player)
    (hpay : canPay player a.cost = true) (hd : d.Valid) :
    ∃ s1 acted entries,
      handlePlayerAction s a.id d = some s1 ∧
      actPhase s a d = some (acted, s1.logs) ∧
      s1.kingdoms = acted.map endTurnIncome ∧
      s1.logs = s.logs ++ entries ∧
      entries.length = s.kingdoms.length ∧
      ∀ (n : Nat) (k : Kingdom), s.kingdoms[n]? = some k →
        k.id = n ∧ ∃ e rest, entries[n]? = some e ∧ e.turn = s.turn ∧ e.text = k.name ++ rest := by
  obtain ⟨out, entries, hact, _, hlog, hlen2, hent⟩ := actPhase_tracked s a d hids hlen hd
  refine ⟨_, out.1, entries, handlePlayerAction_accepted hidle ha hp hpay hact, hact, rfl, hlog,
    hlen2, ?_⟩
  intro n k hk
  exact ⟨ids_at hids hk, hent n k hk⟩

theorem call_appends_log_in_acting_order_witness :
    ∃ s1 entries,
      handlePlayerAction freshGame 4 zeroDraws = some s1 ∧
      s1.logs = freshGame.logs ++ entries ∧ entries.length = 4 ∧
      ∃ e rest, entries[3]? = some e ∧ e.turn = 1 ∧ e.text = "Southmarch" ++ rest := by
  obtain ⟨s1, _, entries, h, _, _, hlog, hlen, hent⟩ :=
    call_appends_log_in_acting_order freshGame
      { id := 4, name := "Trade", cost := [(Res.I, 1)],
        result := .deltas [(Res.M, 3), (Res.G, 1)] }
      zeroDraws (initialKingdom "Northrealm" 0) rfl (by decide) (by decide) (by decide) rfl
      (by decide) zeroDraws_valid
  exact ⟨s1, entries, h, hlog, hlen, (hent 3 (initialKingdom "Southmarch" 3) rfl).2⟩

/-- C8. In a call on a well-formed state with draws `Math.random()` can return,
take the computer kingdom handled by iteration `i` of the AI loop and the state
`cur` reached after the player and the earlier iterations have acted. The action
the Decision Policy selects is a catalog action that the kingdom, as it stands in
`cur`, can pay, and it is the action executed on `cur`; the policy yields no
action only if that kingdom can pay for no catalog action, and then the kingdom
list is left as it is and only a `waits` entry is logged. -/
theorem ai_choice_is_affordable_when_acting (s : GameState) (a : Action) (d : Draws) (i : Nat)
    (aiK : Kingdom)
    (hids : IdsAreIndices s.kingdoms) (hlen : 2 ≤ s.kingdoms.length) (hd : d.Valid)
    (hi : (s.kingdoms.drop 1)[i]? = some aiK) :
    ∃ afterPlayer cur curK,
      executeAction s.turn s.kingdoms s.logs 0 a d.partner d.success = some afterPlayer ∧
      aiLoop s.turn d.ai ((s.kingdoms.drop 1).take i) 0 afterPlayer = some cur ∧
      actPhase s a d =
        (aiTurn s.turn aiK (d.ai i) cur).bind
          (aiLoop s.turn d.ai ((s.kingdoms.drop 1).drop (i + 1)) (i + 1)) ∧
      cur.1[aiK.id]? = some curK ∧ curK.identity = aiK.identity ∧
      (∀ act, chooseAction aiK (d.ai i).choice = some act →
        act ∈ ACTIONS ∧ canPay curK act.cost = true ∧
        aiTurn s.turn aiK (d.ai i) cur =
          executeAction s.turn cur.1 cur.2 aiK.id act (d.ai i).partner (d.ai i).success) ∧
      (chooseAction aiK (d.ai i).choice = none →
        (∀ act ∈ ACTIONS, canPay curK act.cost = false) ∧
        aiTurn s.turn aiK (d.ai i) cur =
          some (cur.1, addLog s.turn cur.2 (aiK.name ++ " waits (No resources).") "info")) := by
  have hp : s.kingdoms[0]? = some s.kingdoms[0] := List.getElem?_eq_getElem (by omega)
  obtain ⟨afterPlayer, _, _, hnext, htr1, _⟩ :=
    executeAction_tracked s.turn (s.kingdoms, s.logs) a d.partner d.success hids hlen
      (tracks_refl 0 s.kingdoms) (Nat.zero_le _) hp hd.1
  simp only at hnext
  have hilt : i < (s.kingdoms.drop 1).length := (List.getElem?_eq_some.mp hi).1
  have hx : ∀ (t : Nat) (k : Kingdom), ((s.kingdoms.drop 1).take i)[t]? = some k →
      s.kingdoms[0 + 1 + t]? = some k := by
    intro t k h
    rw [List.getElem?_take] at h
    split at h
    · rw [List.getElem?_drop] at h
      rw [Nat.zero_add]
      exact h
    · cases h
  obtain ⟨cur, _, hcur, htr2, _⟩ :=
    aiLoop_tracked s.turn d.ai hids hlen (fun n => (hd.2.2 n).2.1)
      ((s.kingdoms.drop 1).take i) 0 afterPlayer hx htr1
  have htake : ((s.kingdoms.drop 1).take i).length = i := by
    rw [List.length_take]
    omega
  rw [htake, Nat.zero_add] at htr2
  have hk : s.kingdoms[1 + i]? = some aiK := by
    rw [List.getElem?_drop] at hi
    exact hi
  have hid : aiK.id = 1 + i := ids_at hids hk
  obtain ⟨curK, hcurK, hident, hres⟩ := htr2.2 (1 + i) aiK hk
  have hres1 : curK.resources = aiK.resources := hres (by omega)
  have hsplit : s.kingdoms.drop 1 =
      (s.kingdoms.drop 1).take i ++ aiK :: (s.kingdoms.drop 1).drop (i + 1) := by
    have h1 := List.take_append_drop i (s.kingdoms.drop 1)
    rw [List.drop_eq_getElem_cons hilt] at h1
    have h2 : (s.kingdoms.drop 1)[i] = aiK := by
      have := List.getElem?_eq_getElem hilt
      rw [hi] at this
      injection this with this
      exact this.symm
    rw [h2] at h1
    exact h1.symm
  refine ⟨afterPlayer, cur, curK, hnext, hcur, ?_, by rw [hid]; exact hcurK, hident, ?_, ?_⟩
  · unfold actPhase
    rw [hnext]
    simp only
    rw [hsplit, aiLoop_append, ← hsplit, hcur, Option.some_bind, htake, Nat.zero_add,
      aiLoop_cons]
  · intro act hch
    obtain ⟨hmem, hpay⟩ := chooseAction_some hch
    refine ⟨hmem, by rw [canPay_resources hres1]; exact hpay, ?_⟩
    unfold aiTurn
    rw [hch]
  · intro hch
    refine ⟨?_, ?_⟩
    · intro act hact
      rw [canPay_resources hres1]
      exact chooseAction_none (hd.2.2 i).1 hch act hact
    · unfold aiTurn
      rw [hch]

theorem ai_choice_is_affordable_when_acting_witness :
    chooseAction (initialKingdom "Eastwind" 2) 0 =
      some { id := 1, name := "Mobilize", cost := [(Res.M, 2)], result := .deltas [(Res.I, 2)] } ∧
    ∃ cur curK,
      aiLoop 1 zeroDraws.ai ((freshGame.kingdoms.drop 1).take 1) 0
        (freshGame.kingdoms.set 0 { initialKingdom "Northrealm" 0 with M := 11, I := 4, G := 7 },
          freshGame.logs ++ [{ turn := 1, text := "Northrealm used Trade.", typ := "player" }]) =
        some cur ∧
      cur.1[2]? = some curK ∧
      ∀ act, chooseAction (initialKingdom "Eastwind" 2) 0 = some act →
        act ∈ ACTIONS ∧ canPay curK act.cost = true := by
  refine ⟨by decide!, ?_⟩
  obtain ⟨afterPlayer, cur, curK, hplayer, hcur, _, hcurK, _, hsome, _⟩ :=
    ai_choice_is_affordable_when_acting freshGame
      { id := 4, name := "Trade", cost := [(Res.I, 1)],
        result := .deltas [(Res.M, 3), (Res.G, 1)] }
      zeroDraws 1 (initialKingdom "Eastwind" 2) (by decide) (by decide) zeroDraws_valid rfl
  have hafter : afterPlayer =
      (freshGame.kingdoms.set 0 { initialKingdom "Northrealm" 0 with M := 11, I := 4, G := 7 },
        freshGame.logs ++ [{ turn := 1, text := "Northrealm used Trade.", typ := "player" }]) := by
    have h : executeAction freshGame.turn freshGame.kingdoms freshGame.logs 0
        { id := 4, name := "Trade", cost := [(Res.I, 1)],
          result := .deltas [(Res.M, 3), (Res.G, 1)] }
        zeroDraws.partner zeroDraws.success =
        some (freshGame.kingdoms.set 0
            { initialKingdom "Northrealm" 0 with M := 11, I := 4, G := 7 },
          freshGame.logs ++ [{ turn := 1, text := "Northrealm used Trade.", typ := "player" }]) := by
      decide!
    rw [h] at hplayer
    injection hplayer with hplayer
    exact hplayer.symm
  subst hafter
  exact ⟨cur, curK, hcur, hcurK, fun act hact => ⟨(hsome act hact).1, (hsome act hact).2.1⟩⟩

/-- Raid and Alliance are affordable for every kingdom: their cost has no key. -/
theorem free_actions_affordable (aiK : Kingdom) :
    ({ id := 2, name := "Raid", cost := [], result := .deltas [(Res.M, 4), (Res.I, -1)] } :
        Action) ∈ affordableActions aiK ∧
    allianceAction ∈ affordableActions aiK := by
  unfold affordableActions
  constructor
  · rw [List.mem_filter]
    exact ⟨by decide, rfl⟩
  · rw [List.mem_filter]
    exact ⟨by decide, rfl⟩

/-- C12. Whatever a kingdom holds, Raid (id 2) and Alliance (id 7) cost nothing
and are among the actions `canPay` accepts, so that list is never empty; for a
draw in `[0, 1)` the index `Math.floor(draw * length)` is in range, the Decision
Policy returns a catalog action, and the loop iteration executes it instead of
logging that the kingdom waits. -/
theorem decision_policy_always_acts (aiK : Kingdom) (r : ℚ) (hr : InUnit r) :
    (∃ raid ∈ affordableActions aiK, raid.id = 2 ∧ raid.cost = []) ∧
    (∃ alliance ∈ affordableActions aiK, alliance.id = 7 ∧ alliance.cost = []) ∧
    affordableActions aiK ≠ [] ∧
    0 ≤ randomIndex r (affordableActions aiK).length ∧
    randomIndex r (affordableActions aiK).length < ((affordableActions aiK).length : Int) ∧
    ∃ act, chooseAction aiK r = some act ∧ act ∈ ACTIONS ∧ canPay aiK act.cost = true ∧
      ∀ (turn : Nat) (rp rs : ℚ) (cur : List Kingdom × List LogEntry),
        aiTurn turn aiK { choice := r, partner := rp, success := rs } cur =
          executeAction turn cur.1 cur.2 aiK.id act rp rs := by
  obtain ⟨hraid, halliance⟩ := free_actions_affordable aiK
  have hne : affordableActions aiK ≠ [] := List.ne_nil_of_mem hraid
  refine ⟨⟨_, hraid, rfl, rfl⟩, ⟨_, halliance, rfl, rfl⟩, hne, randomIndex_nonneg hr _,
    randomIndex_lt hr (List.length_pos.mpr hne), ?_⟩
  obtain ⟨act, hact, _⟩ := jsIndex_randomIndex (affordableActions aiK) hr hne
  have hch : chooseAction aiK r = some act := hact
  obtain ⟨hmem, hpay⟩ := chooseAction_some hch
  refine ⟨act, hch, hmem, hpay, ?_⟩
  intro turn rp rs cur
  unfold aiTurn
  simp only [hch]

theorem decision_policy_always_acts_witness :
    ∃ act, chooseAction { initialKingdom "Duskfall" 1 with M := 0, I := -1, G := 0 } (3 / 4) =
        some act ∧ act ∈ ACTIONS := by
  obtain ⟨_, _, _, _, _, act, hact, hmem, _⟩ :=
    decision_policy_always_acts { initialKingdom "Duskfall" 1 with M := 0, I := -1, G := 0 }
      (3 / 4) (by decide!)
  exact ⟨act, hact, hmem⟩

/-! ## Income buffs -/

theorem payCosts_incomeBuff (cost : List (Res × Int)) (k : Kingdom) :
    (payCosts k cost).incomeBuff = k.incomeBuff := by
  induction cost generalizing k with
  | nil => rfl
  | cons c rest ih =>
    simp only [payCosts, List.foldl_cons] at ih ⊢
    rw [ih, put_incomeBuff]

theorem applyResult_incomeBuff (result : List (Res × Int)) (k : Kingdom) :
    (applyResult k result).incomeBuff = k.incomeBuff := by
  induction result generalizing k with
  | nil => rfl
  | cons c rest ih =>
    simp only [applyResult, List.foldl_cons] at ih ⊢
    rw [ih, put_incomeBuff]

theorem endTurnIncome_incomeBuff (k : Kingdom) :
    (endTurnIncome k).incomeBuff = k.incomeBuff := by
  unfold endTurnIncome
  split <;> rfl

theorem buffsSame_refl (ks : List Kingdom) : BuffsSame ks ks := fun _ => rfl

theorem buffsSame_trans {ks ks1 ks2 : List Kingdom} (h1 : BuffsSame ks ks1)
    (h2 : BuffsSame ks1 ks2) : BuffsSame ks ks2 := fun n => by rw [h2 n, h1 n]

theorem buffsGrow_refl (ks : List Kingdom) : BuffsGrow ks ks :=
  ⟨rfl, fun _ k hk => ⟨k, hk, le_refl _, le_refl _, le_refl _⟩⟩

theorem buffsGrow_trans {ks ks1 ks2 : List Kingdom} (h1 : BuffsGrow ks ks1)
    (h2 : BuffsGrow ks1 ks2) : BuffsGrow ks ks2 := by
  refine ⟨by rw [h2.1, h1.1], ?_⟩
  intro n k hk
  obtain ⟨k1, hk1, hM1, hI1, hG1⟩ := h1.2 n k hk
  obtain ⟨k2, hk2, hM2, hI2, hG2⟩ := h2.2 n k1 hk1
  exact ⟨k2, hk2, le_trans hM1 hM2, le_trans hI1 hI2, le_trans hG1 hG2⟩

/-- Replacing one entry by a kingdom with the same buff keeps all buffs. -/
theorem buffsSame_set {ks : List Kingdom} {i : Nat} {k0 k1 : Kingdom} (hk0 : ks[i]? = some k0)
    (hb : k1.incomeBuff = k0.incomeBuff) : BuffsSame ks (ks.set i k1) := by
  intro n
  have hi : i < ks.length := (List.getElem?_eq_some.mp hk0).1
  by_cases hn : n = i
  · rw [hn, List.getElem?_set_self hi, hk0]
    simp only [Option.map_some', hb]
  · rw [List.getElem?_set_ne (Ne.symm hn)]

/-- Replacing one entry by a kingdom with a buff at least as large lets the buffs
grow. -/
theorem buffsGrow_set {ks : List Kingdom} {i : Nat} {k0 k1 : Kingdom} (hk0 : ks[i]? = some k0)
    (hM : k0.incomeBuff.M ≤ k1.incomeBuff.M) (hI : k0.incomeBuff.I ≤ k1.incomeBuff.I)
    (hG : k0.incomeBuff.G ≤ k1.incomeBuff.G) : BuffsGrow ks (ks.set i k1) := by
  have hi : i < ks.length := (List.getElem?_eq_some.mp hk0).1
  refine ⟨by simp, ?_⟩
  intro n k hk
  by_cases hn : n = i
  · rw [hn, hk0] at hk
    injection hk with hk
    subst hk
    exact ⟨k1, by rw [hn, List.getElem?_set_self hi], hM, hI, hG⟩
  · exact ⟨k, by rw [List.getElem?_set_ne (Ne.symm hn)]; exact hk, le_refl _, le_refl _,
      le_refl _⟩

theorem buffsSame_grow {ks ks1 : List Kingdom} (h : BuffsSame ks ks1)
    (hlen : ks1.length = ks.length) : BuffsGrow ks ks1 := by
  refine ⟨hlen, ?_⟩
  intro n k hk
  have hn : n < ks1.length := by
    rw [hlen]
    exact (List.getElem?_eq_some.mp hk).1
  have h1 := h n
  rw [hk, List.getElem?_eq_getElem hn] at h1
  simp only [Option.map_some', Option.some.injEq] at h1
  exact ⟨ks1[n], List.getElem?_eq_getElem hn, by rw [h1], by rw [h1], by rw [h1]⟩

/-- One `executeAction` never lowers an income buff, and changes one only when the
action is an alliance whose success draw is above 0.5. -/
theorem executeAction_buffs {turn : Nat} {prev : List Kingdom} {logs : List LogEntry} {i : Nat}
    {a : Action} {rp rs : ℚ} {ks1 : List Kingdom} {logs1 : List LogEntry}
    (h : executeAction turn prev logs i a rp rs = some (ks1, logs1)) :
    BuffsGrow prev ks1 ∧ (¬ (a.result = .alliance ∧ rs > 1 / 2) → BuffsSame prev ks1) := by
  unfold executeAction at h
  cases hk0 : prev[i]? with
  | none => rw [hk0] at h; cases h
  | some k0 =>
    rw [hk0] at h
    have hpay := payCosts_incomeBuff a.cost k0
    cases hres : a.result with
    | deltas result =>
      rw [hres] at h
      simp only [Option.some.injEq, Prod.mk.injEq] at h
      obtain ⟨h1, _⟩ := h
      subst h1
      have hb : (applyResult (payCosts k0 a.cost) result).incomeBuff = k0.incomeBuff := by
        rw [applyResult_incomeBuff, hpay]
      have hsame := buffsSame_set hk0 hb
      exact ⟨buffsSame_grow hsame (by simp), fun _ => hsame⟩
    | alliance =>
      rw [hres] at h
      simp only at h
      split at h
      · rename_i hrs
        split at h
        · cases h
        · rename_i j p hpartner
          simp only [Option.some.injEq, Prod.mk.injEq] at h
          obtain ⟨h1, _⟩ := h
          subst h1
          have hmem := jsIndex_mem hpartner
          obtain ⟨hji, hget, _⟩ :=
            othersOf_mem hk0 (identity_id (payCosts_identity a.cost k0)) hmem
          have hg1 : BuffsGrow prev
              (prev.set j { p with incomeBuff := partnerBuff p.incomeBuff }) := by
            apply buffsGrow_set hget <;> simp only [partnerBuff] <;> omega
          have hk0b : (prev.set j { p with incomeBuff := partnerBuff p.incomeBuff })[i]? =
              some k0 := by
            rw [List.getElem?_set_ne hji]
            exact hk0
          have hg2 := @buffsGrow_set _ i k0
            { payCosts k0 a.cost with
              incomeBuff := actorBuff (payCosts k0 a.cost).incomeBuff
              alliances := (payCosts k0 a.cost).alliances ++ [p.name] } hk0b
            (by simp only [actorBuff, hpay]; omega) (by simp only [actorBuff, hpay]; omega)
            (by simp only [actorBuff, hpay]; omega)
          refine ⟨buffsGrow_trans hg1 hg2, ?_⟩
          intro hno
          exact absurd ⟨rfl, hrs⟩ hno
      · simp only [Option.some.injEq, Prod.mk.injEq] at h
        obtain ⟨h1, _⟩ := h
        subst h1
        have hsame := @buffsSame_set prev i k0
          { payCosts k0 a.cost with I := max 0 ((payCosts k0 a.cost).I - 3) } hk0 hpay
        exact ⟨buffsSame_grow hsame (by simp), fun _ => hsame⟩

theorem aiTurn_buffs {turn : Nat} {aiK : Kingdom} {d : AIDraw}
    {cur next : List Kingdom × List LogEntry} (h : aiTurn turn aiK d cur = some next) :
    BuffsGrow cur.1 next.1 ∧
      ((∀ act, chooseAction aiK d.choice = some act →
          ¬ (act.result = .alliance ∧ d.success > 1 / 2)) → BuffsSame cur.1 next.1) := by
  unfold aiTurn at h
  split at h
  · rename_i act hch
    obtain ⟨hg, hs⟩ := @executeAction_buffs _ _ _ _ _ _ _ next.1 next.2 h
    exact ⟨hg, fun hno => hs (hno act hch)⟩
  · injection h with h
    subst h
    exact ⟨buffsGrow_refl _, fun _ => buffsSame_refl _⟩

/-- The AI loop never lowers an income buff, and changes one only if in some
iteration the selected action is an alliance whose success draw is above 0.5. -/
theorem aiLoop_buffs (turn : Nat) (ai : Nat → AIDraw) :
    ∀ (xs : List Kingdom) (i : Nat) (cur out : List Kingdom × List LogEntry),
      aiLoop turn ai xs i cur = some out →
      BuffsGrow cur.1 out.1 ∧
        ((∀ (t : Nat) (aiK : Kingdom) (act : Action), xs[t]? = some aiK →
            chooseAction aiK (ai (i + t)).choice = some act →
            ¬ (act.result = .alliance ∧ (ai (i + t)).success > 1 / 2)) →
          BuffsSame cur.1 out.1) := by
  intro xs
  induction xs with
  | nil =>
    intro i cur out h
    simp only [aiLoop, Option.some.injEq] at h
    subst h
    exact ⟨buffsGrow_refl _, fun _ => buffsSame_refl _⟩
  | cons x rest ih =>
    intro i cur out h
    rw [aiLoop_cons] at h
    cases hturn : aiTurn turn x (ai i) cur with
    | none =>
      rw [hturn] at h
      cases h
    | some next =>
      rw [hturn, Option.some_bind] at h
      obtain ⟨hg1, hs1⟩ := aiTurn_buffs hturn
      obtain ⟨hg2, hs2⟩ := ih (i + 1) next out h
      refine ⟨buffsGrow_trans hg1 hg2, ?_⟩
      intro hno
      apply buffsSame_trans (hs1 ?_) (hs2 ?_)
      · intro act hch
        have := hno 0 x act (by simp) (by simpa using hch)
        simpa using this
      · intro t aiK act hx hch
        have := hno (t + 1) aiK act (by simpa using hx)
          (by rw [show i + (t + 1) = i + 1 + t by omega]; exact hch)
        rw [show i + (t + 1) = i + 1 + t by omega] at this
        exact this

theorem buffsSame_income (ks : List Kingdom) : BuffsSame ks (ks.map endTurnIncome) := by
  intro n
  rw [List.getElem?_map]
  cases ks[n]? with
  | none => rfl
  | some k => simp only [Option.map_some', endTurnIncome_incomeBuff]

/-- Whatever a call returns, no income buff is lower than before, and the buffs
are those from before unless some kingdom's Alliance succeeded during the call. -/
theorem handlePlayerAction_buffs {s s1 : GameState} {actionId : Nat} {d : Draws}
    (h : handlePlayerAction s actionId d = some s1) :
    BuffsGrow s.kingdoms s1.kingdoms ∧
      (¬ AllianceSucceeds s actionId d → BuffsSame s.kingdoms s1.kingdoms) := by
  unfold handlePlayerAction at h
  split at h
  · injection h with h
    subst h
    exact ⟨buffsGrow_refl _, fun _ => buffsSame_refl _⟩
  · split at h
    · cases h
    · rename_i action hfind
      split at h
      · cases h
      · split at h
        · injection h with h
          subst h
          exact ⟨buffsGrow_refl _, fun _ => buffsSame_refl _⟩
        · split at h
          · cases h
          · rename_i acted logs hact
            injection h with h
            subst h
            unfold actPhase at hact
            split at hact
            · cases hact
            · rename_i afterPlayer hplayer
              obtain ⟨hg1, hs1⟩ :=
                @executeAction_buffs _ _ _ _ _ _ _ afterPlayer.1 afterPlayer.2 hplayer
              obtain ⟨hg2, hs2⟩ := aiLoop_buffs _ _ _ _ _ _ hact
              simp only at hg2 hs2
              have hinc := buffsSame_income acted
              refine ⟨buffsGrow_trans (buffsGrow_trans hg1 hg2)
                (buffsSame_grow hinc (by simp)), ?_⟩
              intro hno
              refine buffsSame_trans (buffsSame_trans (hs1 ?_) (hs2 ?_)) hinc
              · intro hsucc
                exact hno (Or.inl ⟨action, hfind, hsucc.1, hsucc.2⟩)
              · intro t aiK act hx hch hsucc
                rw [Nat.zero_add] at hch hsucc
                exact hno (Or.inr ⟨t, aiK, act, hx, hch, hsucc.1, hsucc.2⟩)

theorem buffsGrow_nonneg {ks ks1 : List Kingdom} (h : BuffsGrow ks ks1)
    (h0 : ∀ k ∈ ks, 0 ≤ k.incomeBuff.M ∧ 0 ≤ k.incomeBuff.I ∧ 0 ≤ k.incomeBuff.G) :
    ∀ k ∈ ks1, 0 ≤ k.incomeBuff.M ∧ 0 ≤ k.incomeBuff.I ∧ 0 ≤ k.incomeBuff.G := by
  intro k1 hk1
  obtain ⟨n, hn⟩ := List.mem_iff_getElem?.mp hk1
  have hlt : n < ks.length := by
    rw [← h.1]
    exact (List.getElem?_eq_some.mp hn).1
  obtain ⟨k2, hk2, hM, hI, hG⟩ := h.2 n ks[n] (List.getElem?_eq_getElem hlt)
  rw [hn] at hk2
  injection hk2 with hk2
  subst hk2
  obtain ⟨h0M, h0I, h0G⟩ := h0 ks[n] (List.getElem_mem _)
  exact ⟨le_trans h0M hM, le_trans h0I hI, le_trans h0G hG⟩

/-- Along a game no income buff component becomes negative if none is at the
start. -/
theorem play_buffs_nonneg (inputs : List (Nat × Draws)) :
    ∀ (s s1 : GameState), play s inputs = some s1 →
      (∀ k ∈ s.kingdoms, 0 ≤ k.incomeBuff.M ∧ 0 ≤ k.incomeBuff.I ∧ 0 ≤ k.incomeBuff.G) →
      ∀ k ∈ s1.kingdoms, 0 ≤ k.incomeBuff.M ∧ 0 ≤ k.incomeBuff.I ∧ 0 ≤ k.incomeBuff.G := by
  induction inputs with
  | nil =>
    intro s s1 h h0
    simp only [play, Option.some.injEq] at h
    subst h
    exact h0
  | cons x rest ih =>
    intro s s1 h h0
    obtain ⟨actionId, d⟩ := x
    simp only [play] at h
    split at h
    · cases h
    · rename_i s2 hstep
      exact ih s2 s1 h (buffsGrow_nonneg (handlePlayerAction_buffs hstep).1 h0)

theorem initGame_buffs_zero (s : GameState) :
    ∀ k ∈ (initGame s).kingdoms,
      0 ≤ k.incomeBuff.M ∧ 0 ≤ k.incomeBuff.I ∧ 0 ≤ k.incomeBuff.G := by
  intro k hk
  simp only [initGame, KINGDOM_NAMES, List.enum, List.enumFrom, List.map_cons, List.map_nil,
    List.mem_cons, List.mem_singleton, List.not_mem_nil, or_false] at hk
  rcases hk with h | h | h | h <;> subst h <;> decide

/-- C11. Whatever state a call is made on and whatever it draws, the state it
returns (the same state for a rejected call) has every kingdom's income buff
components M, I and G at least as large as before, and a kingdom's buff differs
from before only if some kingdom's Alliance succeeded during the call; hence in
every state of a game started by `initGame` all buff components are at least 0. -/
theorem income_buffs_never_decrease (s : GameState) (actionId : Nat) (d : Draws) :
    (∀ s1, handlePlayerAction s actionId d = some s1 →
      s1.kingdoms.length = s.kingdoms.length ∧
      ∀ (n : Nat) (k : Kingdom), s.kingdoms[n]? = some k →
        ∃ k1, s1.kingdoms[n]? = some k1 ∧
          k.incomeBuff.M ≤ k1.incomeBuff.M ∧ k.incomeBuff.I ≤ k1.incomeBuff.I ∧
          k.incomeBuff.G ≤ k1.incomeBuff.G ∧
          (k1.incomeBuff ≠ k.incomeBuff → AllianceSucceeds s actionId d)) ∧
    (∀ (inputs : List (Nat × Draws)) (s2 : GameState),
      play (initGame s) inputs = some s2 →
      ∀ k ∈ s2.kingdoms, 0 ≤ k.incomeBuff.M ∧ 0 ≤ k.incomeBuff.I ∧ 0 ≤ k.incomeBuff.G) := by
  constructor
  · intro s1 h
    obtain ⟨hgrow, hsame⟩ := handlePlayerAction_buffs h
    refine ⟨hgrow.1, ?_⟩
    intro n k hk
    obtain ⟨k1, hk1, hM, hI, hG⟩ := hgrow.2 n k hk
    refine ⟨k1, hk1, hM, hI, hG, ?_⟩
    intro hne
    by_contra hno
    have h1 := hsame hno n
    rw [hk, hk1] at h1
    simp only [Option.map_some', Option.some.injEq] at h1
    exact hne h1
  · intro inputs s2 h
    exact play_buffs_nonneg inputs (initGame s) s2 h (initGame_buffs_zero s)

theorem income_buffs_never_decrease_witness :
    (handlePlayerAction freshGame 7 allianceDraws).map
        (fun s => s.kingdoms.map (fun k => k.incomeBuff)) =
      some [{ M := 3, I := 1, G := 2 }, { M := 2, I := 1, G := 1 }, { M := 0, I := 0, G := 0 },
        { M := 0, I := 0, G := 0 }] ∧
    AllianceSucceeds freshGame 7 allianceDraws := by
  have heval : (handlePlayerAction freshGame 7 allianceDraws).map
        (fun s => s.kingdoms.map (fun k => k.incomeBuff)) =
      some [{ M := 3, I := 1, G := 2 }, { M := 2, I := 1, G := 1 }, { M := 0, I := 0, G := 0 },
        { M := 0, I := 0, G := 0 }] := by
    decide!
  refine ⟨heval, ?_⟩
  cases hcall : handlePlayerAction freshGame 7 allianceDraws with
  | none =>
    rw [hcall] at heval
    cases heval
  | some s1 =>
    rw [hcall] at heval
    simp only [Option.map_some', Option.some.injEq] at heval
    obtain ⟨_, hpoint⟩ := (income_buffs_never_decrease freshGame 7 allianceDraws).1 s1 hcall
    obtain ⟨k1, hk1, _, _, _, hdiff⟩ := hpoint 0 (initialKingdom "Northrealm" 0) rfl
    apply hdiff
    have h0 : (s1.kingdoms.map (fun k => k.incomeBuff))[0]? = some { M := 3, I := 1, G := 2 } := by
      rw [heval]
      rfl
    rw [List.getElem?_map, hk1] at h0
    simp only [Option.map_some', Option.some.injEq] at h0
    rw [h0]
    decide

/-! ## Money and Goods -/

/-- For a catalog action whose cost the kingdom can pay, paying leaves Money and
Goods at least 0, and so does adding the result deltas afterwards. -/
theorem catalog_action_nonneg {a : Action} {k0 : Kingdom} (ha : a ∈ ACTIONS)
    (hpay : canPay k0 a.cost = true) (hM : 0 ≤ k0.M) (hG : 0 ≤ k0.G) :
    (0 ≤ (payCosts k0 a.cost).M ∧ 0 ≤ (payCosts k0 a.cost).G) ∧
    ∀ result, a.result = .deltas result →
      0 ≤ (applyResult (payCosts k0 a.cost) result).M ∧
        0 ≤ (applyResult (payCosts k0 a.cost) result).G := by
  simp only [ACTIONS, List.mem_cons, List.mem_singleton, List.not_mem_nil, or_false] at ha
  rcases ha with h | h | h | h | h | h | h <;> subst h <;>
    simp only [canPay, List.all_cons, List.all_nil, Kingdom.get, Bool.and_true,
      Bool.not_eq_true', decide_eq_false_iff_not, not_lt] at hpay <;>
    refine ⟨?_, ?_⟩ <;>
    (try intro result hres) <;>
    (try cases hres) <;>
    simp only [payCosts, applyResult, List.foldl_cons, List.foldl_nil, Kingdom.put,
      Kingdom.get] <;>
    (try constructor) <;> omega

theorem moneyGoodsNonneg_set {ks : List Kingdom} (h : MoneyGoodsNonneg ks) (i : Nat)
    {k1 : Kingdom} (hM : 0 ≤ k1.M) (hG : 0 ≤ k1.G) : MoneyGoodsNonneg (ks.set i k1) := by
  intro k hk
  rcases List.mem_or_eq_of_mem_set hk with hmem | heq
  · exact h k hmem
  · rw [heq]
    exact ⟨hM, hG⟩

theorem moneyGoodsNonneg_income {ks : List Kingdom} (h : MoneyGoodsNonneg ks) :
    MoneyGoodsNonneg (ks.map endTurnIncome) := by
  intro k1 hk1
  rw [List.mem_map] at hk1
  obtain ⟨k, hk, rfl⟩ := hk1
  unfold endTurnIncome
  split
  · exact ⟨le_max_left _ _, le_max_left _ _⟩
  · exact h k hk

/-- One `executeAction` of a catalog action that the acting kingdom can pay keeps
Money and Goods of every kingdom at least 0. -/
theorem executeAction_nonneg {turn : Nat} {prev : List Kingdom} {logs : List LogEntry} {i : Nat}
    {a : Action} {rp rs : ℚ} {ks1 : List Kingdom} {logs1 : List LogEntry} {k0 : Kingdom}
    (h : executeAction turn prev logs i a rp rs = some (ks1, logs1))
    (hk0 : prev[i]? = some k0) (ha : a ∈ ACTIONS) (hpay : canPay k0 a.cost = true)
    (hnn : MoneyGoodsNonneg prev) : MoneyGoodsNonneg ks1 := by
  have hk0nn := hnn k0 (List.mem_iff_getElem?.mpr ⟨i, hk0⟩)
  obtain ⟨⟨hpM, hpG⟩, hres1⟩ := catalog_action_nonneg ha hpay hk0nn.1 hk0nn.2
  unfold executeAction at h
  rw [hk0] at h
  cases hres : a.result with
  | deltas result =>
    rw [hres] at h
    simp only [Option.some.injEq, Prod.mk.injEq] at h
    obtain ⟨h1, _⟩ := h
    subst h1
    obtain ⟨hM, hG⟩ := hres1 result hres
    exact moneyGoodsNonneg_set hnn i hM hG
  | alliance =>
    rw [hres] at h
    simp only at h
    split at h
    · split at h
      · cases h
      · rename_i j p hpartner
        simp only [Option.some.injEq, Prod.mk.injEq] at h
        obtain ⟨h1, _⟩ := h
        subst h1
        have hmem := jsIndex_mem hpartner
        obtain ⟨_, hget, _⟩ :=
          othersOf_mem hk0 (identity_id (payCosts_identity a.cost k0)) hmem
        have hpnn := hnn p (List.mem_iff_getElem?.mpr ⟨j, hget⟩)
        have hstep := @moneyGoodsNonneg_set prev hnn j
          { p with incomeBuff := partnerBuff p.incomeBuff } hpnn.1 hpnn.2
        exact moneyGoodsNonneg_set hstep i hpM hpG
    · simp only [Option.some.injEq, Prod.mk.injEq] at h
      obtain ⟨h1, _⟩ := h
      subst h1
      exact moneyGoodsNonneg_set hnn i hpM hpG

/-- The AI loop over captured kingdoms at positions `i + 1`, `i + 2`, ... keeps the
list tracked and Money and Goods at least 0, whatever it draws. -/
theorem aiLoop_nonneg (turn : Nat) (ai : Nat → AIDraw) {ks : List Kingdom}
    (hids : IdsAreIndices ks) :
    ∀ (xs : List Kingdom) (i : Nat) (cur out : List Kingdom × List LogEntry),
      (∀ (t : Nat) (aiK : Kingdom), xs[t]? = some aiK → ks[i + 1 + t]? = some aiK) →
      Tracks (i + 1) ks cur.1 → MoneyGoodsNonneg cur.1 →
      aiLoop turn ai xs i cur = some out →
      Tracks (i + 1 + xs.length) ks out.1 ∧ MoneyGoodsNonneg out.1 := by
  intro xs
  induction xs with
  | nil =>
    intro i cur out _ htr hnn h
    simp only [aiLoop, Option.some.injEq] at h
    subst h
    exact ⟨htr, hnn⟩
  | cons aiK rest ih =>
    intro i cur out hx htr hnn h
    rw [aiLoop_cons] at h
    have hk : ks[i + 1]? = some aiK := hx 0 aiK (by simp)
    have hid : aiK.id = i + 1 := ids_at hids hk
    obtain ⟨curK, hcurK, _, hres⟩ := htr.2 (i + 1) aiK hk
    have hres1 : curK.resources = aiK.resources := hres (le_refl _)
    have hx1 : ∀ (t : Nat) (k : Kingdom), rest[t]? = some k → ks[i + 1 + 1 + t]? = some k := by
      intro t k hrest
      have := hx (t + 1) k (by simpa using hrest)
      rw [show i + 1 + (t + 1) = i + 1 + 1 + t by omega] at this
      exact this
    cases hturn : aiTurn turn aiK (ai i) cur with
    | none =>
      rw [hturn] at h
      cases h
    | some next =>
      rw [hturn, Option.some_bind] at h
      have hstep : Tracks (i + 1 + 1) ks next.1 ∧ MoneyGoodsNonneg next.1 := by
        unfold aiTurn at hturn
        split at hturn
        · rename_i act hch
          obtain ⟨hmem, hpay⟩ := chooseAction_some hch
          rw [hid] at hturn
          have hact : ActedAt (i + 1) cur.1 next.1 :=
            @executeAction_actedAt _ _ _ _ _ _ _ next.1 next.2 hturn
          refine ⟨tracks_step htr hact (by omega), ?_⟩
          exact @executeAction_nonneg _ _ _ _ _ _ _ next.1 next.2 curK hturn hcurK hmem
            (by rw [canPay_resources hres1]; exact hpay) hnn
        · injection hturn with hturn
          subst hturn
          exact ⟨tracks_mono htr (by omega), hnn⟩
      obtain ⟨htr2, hnn2⟩ := ih (i + 1) next out hx1 hstep.1 hstep.2 h
      refine ⟨?_, hnn2⟩
      rw [show i + 1 + (aiK :: rest).length = i + 1 + 1 + rest.length by simp; omega]
      exact htr2

/-- Whatever a call on a state with ids equal to indices returns, Money and Goods
of every kingdom stay at least 0. -/
theorem handlePlayerAction_nonneg {s s1 : GameState} {actionId : Nat} {d : Draws}
    (h : handlePlayerAction s actionId d = some s1) (hids : IdsAreIndices s.kingdoms)
    (hnn : MoneyGoodsNonneg s.kingdoms) : MoneyGoodsNonneg s1.kingdoms := by
  unfold handlePlayerAction at h
  split at h
  · injection h with h
    subst h
    exact hnn
  · split at h
    · cases h
    · rename_i action hfind
      have hmem : action ∈ ACTIONS := List.mem_of_find?_eq_some hfind
      split at h
      · cases h
      · rename_i player hplayer
        split at h
        · injection h with h
          subst h
          exact hnn
        · rename_i hpay
          have hpay1 : canPay player action.cost = true := by simpa using hpay
          split at h
          · cases h
          · rename_i acted logs hact
            injection h with h
            subst h
            unfold actPhase at hact
            split at hact
            · cases hact
            · rename_i afterPlayer hexec
              have hact0 : ActedAt 0 s.kingdoms afterPlayer.1 :=
                @executeAction_actedAt _ _ _ _ _ _ _ afterPlayer.1 afterPlayer.2 hexec
              have hnn0 : MoneyGoodsNonneg afterPlayer.1 :=
                @executeAction_nonneg _ _ _ _ _ _ _ afterPlayer.1 afterPlayer.2 player hexec
                  hplayer hmem hpay1 hnn
              have htr0 : Tracks (0 + 1) s.kingdoms afterPlayer.1 :=
                tracks_step (tracks_refl 0 s.kingdoms) hact0 (Nat.zero_le _)
              have hx : ∀ (t : Nat) (k : Kingdom), (s.kingdoms.drop 1)[t]? = some k →
                  s.kingdoms[0 + 1 + t]? = some k := by
                intro t k hk
                rw [List.getElem?_drop] at hk
                rw [Nat.zero_add]
                exact hk
              obtain ⟨_, hnn1⟩ :=
                aiLoop_nonneg s.turn d.ai hids (s.kingdoms.drop 1) 0 afterPlayer (acted, logs)
                  hx htr0 hnn0 hact
              exact moneyGoodsNonneg_income hnn1

/-- Along a game from an idle state with ids equal to indices, Money and Goods of
every kingdom stay at least 0 if they are at the start. -/
theorem play_nonneg (inputs : List (Nat × Draws)) :
    ∀ (s s1 : GameState), play s inputs = some s1 → IdsAreIndices s.kingdoms →
      s.isProcessing = false → MoneyGoodsNonneg s.kingdoms → MoneyGoodsNonneg s1.kingdoms := by
  induction inputs with
  | nil =>
    intro s s1 h _ _ hnn
    simp only [play, Option.some.injEq] at h
    subst h
    exact hnn
  | cons x rest ih =>
    intro s s1 h hids hidle hnn
    obtain ⟨actionId, d⟩ := x
    simp only [play] at h
    split at h
    · cases h
    · rename_i s2 hstep
      obtain ⟨hids2, _, hidle2⟩ := handlePlayerAction_wellFormed hstep hids hidle
      exact ih s2 s1 h hids2 hidle2 (handlePlayerAction_nonneg hstep hids hnn)

theorem initGame_nonneg (s : GameState) : MoneyGoodsNonneg (initGame s).kingdoms := by
  intro k hk
  simp only [initGame, KINGDOM_NAMES, List.enum, List.enumFrom, List.map_cons, List.map_nil,
    List.mem_cons, List.mem_singleton, List.not_mem_nil, or_false] at hk
  rcases hk with h | h | h | h <;> subst h <;> decide

/-- No catalog action has a negative result delta on Money or Goods. -/
theorem catalog_deltas_nonneg :
    ∀ a ∈ ACTIONS, ∀ result, a.result = .deltas result →
      ∀ c ∈ result, c.1 ≠ Res.I → 0 ≤ c.2 := by
  intro a ha result hres c hc hne
  simp only [ACTIONS, List.mem_cons, List.mem_singleton, List.not_mem_nil, or_false] at ha
  rcases ha with h | h | h | h | h | h | h <;> subst h <;> cases hres <;>
    simp only [List.mem_cons, List.mem_singleton, List.not_mem_nil, or_false] at hc <;>
    first
      | (subst hc
         decide)
      | (rcases hc with h | h <;> subst h <;> first | decide | exact absurd rfl hne)

/-- C13. In every state of a game started by `initGame`, whatever the calls and
their draws, every kingdom's Money and Goods are at least 0 and so are its
income buffs on Money and Goods; in the catalog every cost amount is positive
and every result delta on Money or Goods is at least 0, so Money and Goods only
go down by a cost, which the handler has checked with `canPay` before the
kingdom acts. -/
theorem money_and_goods_stay_nonneg (s0 : GameState) (inputs : List (Nat × Draws))
    (s1 : GameState) (h : play (initGame s0) inputs = some s1) :
    (∀ k ∈ s1.kingdoms,
      0 ≤ k.M ∧ 0 ≤ k.G ∧ 0 ≤ k.incomeBuff.M ∧ 0 ≤ k.incomeBuff.G) ∧
    (∀ a ∈ ACTIONS, ∀ result, a.result = .deltas result →
      ∀ c ∈ result, c.1 ≠ Res.I → 0 ≤ c.2) ∧
    (∀ a ∈ ACTIONS, ∀ c ∈ a.cost, 0 < c.2) := by
  refine ⟨?_, catalog_deltas_nonneg, by decide⟩
  intro k hk
  have hnn := play_nonneg inputs (initGame s0) s1 h (by rfl) rfl (initGame_nonneg s0) k hk
  have hb := play_buffs_nonneg inputs (initGame s0) s1 h (initGame_buffs_zero s0) k hk
  exact ⟨hnn.1, hnn.2, hb.1, hb.2.2⟩

theorem money_and_goods_stay_nonneg_witness :
    ∃ s1, play (initGame mountState) raidAfterTwoFailedAlliances = some s1 ∧
      ∀ k ∈ s1.kingdoms, 0 ≤ k.M ∧ 0 ≤ k.G ∧ 0 ≤ k.incomeBuff.M ∧ 0 ≤ k.incomeBuff.G := by
  cases hplay : play (initGame mountState) raidAfterTwoFailedAlliances with
  | none =>
    have hsome : (play (initGame mountState) raidAfterTwoFailedAlliances).isSome = true := by
      decide!
    rw [hplay] at hsome
    cases hsome
  | some s1 =>
    exact ⟨s1, rfl,
      (money_and_goods_stay_nonneg mountState raidAfterTwoFailedAlliances s1 hplay).1⟩

end FourWinds
